import Mathlib

/-!
Formal model of `schedulingtask.py` (Heronix-Scheduler): the `TaskScheduler`
class with its greedy LPT assignment (`lpt_schedule`), the bounded local
search (`local_search_optimization`) and the statistics computation
(`calculate_statistics`).

Modelling conventions: Python integers are `Int`/`Nat`; Python float
arithmetic is modelled by exact rationals; task sequences are lists; fallible
operations (Python exceptions such as `ValueError` raised by `max()` on an
empty sequence, or `IndexError` raised by `heappop` on an empty heap) are
modelled by `Option`/`Except`.  The `heapq` priority queue is modelled by
its extract-min contract: the heap content is a list of `(load, machine id)`
pairs and `heappop` removes the lexicographically least pair, which is
exactly the observable behaviour of `heapq` here because all stored pairs
are distinct (machine ids are unique).  The advisory wall-clock
instrumentation (`time.time()`, `execution_time`) is not modelled.
-/

namespace Heronix

/-- Python `max` over a list of integers, scanning left to right; `none`
models the `ValueError` that `max()` raises on an empty sequence. -/
def pyMax : List Int → Option Int
  | [] => none
  | x :: xs => some (xs.foldl max x)

/-- Python `min` over a list of integers; `none` models the `ValueError`
on an empty sequence. -/
def pyMin : List Int → Option Int
  | [] => none
  | x :: xs => some (xs.foldl min x)

/-- Value of `pyMax` with default `0`; only used where the list is provably
non-empty. -/
def pyMaxD (l : List Int) : Int := (pyMax l).getD 0

/-- Value of `pyMin` with default `0`; only used where the list is provably
non-empty. -/
def pyMinD (l : List Int) : Int := (pyMin l).getD 0

/-- Python `list.index(a)`: position of the first occurrence of `a`. -/
def pyIndex (a : Int) : List Int → Nat
  | [] => 0
  | x :: xs => if x = a then 0 else pyIndex a xs + 1

/-- Accumulator loop of Python `max(iterable, key=f)` over naturals: the
current best is replaced only on a strictly larger key, so on ties the first
maximum wins. -/
def pyArgmaxAux (f : Nat → Int) : Nat → List Nat → Nat
  | best, [] => best
  | best, x :: xs => pyArgmaxAux f (if f best < f x then x else best) xs

/-- Python `max(iterable, key=f)` over a list of naturals (first maximum
wins).  The empty case is never reached where this is used. -/
def pyArgmax (f : Nat → Int) : List Nat → Nat
  | [] => 0
  | x :: xs => pyArgmaxAux f x xs

/-- Lexicographic order on heap entries `(load, machine id)`: the order in
which Python compares the tuples stored in the `heapq` structure. -/
def pairLt (a b : Int × Nat) : Prop :=
  a.1 < b.1 ∨ (a.1 = b.1 ∧ a.2 < b.2)

instance : DecidableRel pairLt := fun a b => by unfold pairLt; exact inferInstance

/-- The least element of a heap under the `heapq` tuple order (`none` on an
empty heap, where Python `heappop` raises `IndexError`). -/
def heapMin : List (Int × Nat) → Option (Int × Nat)
  | [] => none
  | x :: xs => some (xs.foldl (fun b y => if pairLt y b then y else b) x)

/-- Removal of the first occurrence of an element from a list (used to model
taking the popped entry out of the heap content). -/
def removeOne {α : Type _} [DecidableEq α] (e : α) : List α → List α
  | [] => []
  | x :: xs => if x = e then xs else x :: removeOne e xs

/-- `heapq.heappop`: remove and return the least `(load, machine id)` pair. -/
def heapPop (h : List (Int × Nat)) : Option ((Int × Nat) × List (Int × Nat)) :=
  (heapMin h).map (fun e => (e, removeOne e h))

/-- State of a `TaskScheduler` instance: the constructor arguments plus the
mutable fields `schedule`, `machine_loads` and `makespan`.  The advisory
`execution_time` field (wall clock) is not modelled. -/
structure Sched where
  tasks : List Int
  num_machines : Int
  schedule : List (List (Nat × Int))
  machine_loads : List Int
  makespan : Int
deriving DecidableEq

/-- `TaskScheduler.__init__`: stores the inputs and the initial empty
schedule and loads.  The constructor performs no validation whatsoever;
Python `range` of a non-positive count is empty, hence `Int.toNat`. -/
def initScheduler (tasks : List Int) (num_machines : Int) : Sched :=
  { tasks := tasks
    num_machines := num_machines
    schedule := List.replicate num_machines.toNat []
    machine_loads := List.replicate num_machines.toNat 0
    makespan := 0 }

/-- Sort order realised by `sorted(enumerate(self.tasks), key=lambda x: x[1],
reverse=True)`: duration descending, ties broken by ascending original index
(Python's sort is stable, so equal durations keep their enumeration order). -/
def lptOrder (a b : Nat × Int) : Prop :=
  b.2 < a.2 ∨ (a.2 = b.2 ∧ a.1 ≤ b.1)

instance : DecidableRel lptOrder := fun a b => by unfold lptOrder; exact inferInstance

instance : IsTotal (Nat × Int) lptOrder :=
  ⟨by intro a b; unfold lptOrder; omega⟩

instance : IsTrans (Nat × Int) lptOrder :=
  ⟨by intro a b c h1 h2; unfold lptOrder at h1 h2 ⊢; omega⟩

/-- Intermediate state of the assignment loop of `lpt_schedule`. -/
structure LptState where
  schedule : List (List (Nat × Int))
  machine_loads : List Int
  heap : List (Int × Nat)
deriving DecidableEq

/-- One iteration of the assignment loop of `lpt_schedule`: pop the machine
with minimum load, append the task to its sequence, add the duration to its
load and push the updated pair.  `none` models the `IndexError` of `heappop`
on an empty heap (only possible when `num_machines = 0`). -/
def lptStep (st : LptState) (t : Nat × Int) : Option LptState :=
  match heapPop st.heap with
  | none => none
  | some ((min_load, machine_id), rest) =>
    some { schedule := st.schedule.set machine_id ((st.schedule.getD machine_id []) ++ [t])
           machine_loads := st.machine_loads.set machine_id (min_load + t.2)
           heap := rest ++ [(min_load + t.2, machine_id)] }

/-- The assignment loop of `lpt_schedule` over the sorted task list. -/
def lptLoop : LptState → List (Nat × Int) → Except String LptState
  | st, [] => .ok st
  | st, t :: ts =>
    match lptStep st t with
    | none => .error "IndexError: index out of range"
    | some st1 => lptLoop st1 ts

/-- `TaskScheduler.lpt_schedule`: sort tasks by duration descending (ties by
ascending index), reset schedule and loads, assign each task to the machine
with minimum current load via the heap, then set the makespan to the maximum
machine load.  Errors model the Python exceptions reachable when
`num_machines = 0`. -/
def lptScheduleE (s : Sched) : Except String Sched :=
  let sorted_tasks := List.insertionSort lptOrder s.tasks.enum
  let m := s.num_machines.toNat
  match lptLoop { schedule := List.replicate m []
                  machine_loads := List.replicate m 0
                  heap := (List.range m).map (fun i => ((0 : Int), i)) } sorted_tasks with
  | .error e => .error e
  | .ok fin =>
    match pyMax fin.machine_loads with
    | none => .error "ValueError: max() arg is an empty sequence"
    | some mk =>
      .ok { s with schedule := fin.schedule, machine_loads := fin.machine_loads, makespan := mk }

/-- Index of the most loaded machine in `local_search_optimization`:
`self.machine_loads.index(max(self.machine_loads))`. -/
def bottleneckIdx (s : Sched) : Nat := pyIndex (pyMaxD s.machine_loads) s.machine_loads

/-- Task sequence of the bottleneck machine: `self.schedule[max_machine]`. -/
def bottleneckSched (s : Sched) : List (Nat × Int) := s.schedule.getD (bottleneckIdx s) []

/-- Position of the largest task on the bottleneck machine:
`max(range(len(...)), key=lambda i: self.schedule[max_machine][i][1])`. -/
def largestTaskIdx (s : Sched) : Nat :=
  pyArgmax (fun i => ((bottleneckSched s).getD i (0, 0)).2)
    (List.range (bottleneckSched s).length)

/-- The task selected for relocation: `self.schedule[max_machine][largest_task_idx]`. -/
def taskToMove (s : Sched) : Nat × Int := (bottleneckSched s).getD (largestTaskIdx s) (0, 0)

/-- Index of the least loaded machine:
`self.machine_loads.index(min(self.machine_loads))`. -/
def minIdx (s : Sched) : Nat := pyIndex (pyMinD s.machine_loads) s.machine_loads

/-- The machine indices surviving the generator filter
`i != max_machine and i != min_machine` over `range(self.num_machines)`. -/
def otherIdxs (s : Sched) : List Nat :=
  (List.range s.num_machines.toNat).filter
    (fun i => decide (i ≠ bottleneckIdx s ∧ i ≠ minIdx s))

/-- `new_max_load = self.machine_loads[max_machine] - task_to_move[1]`. -/
def newMaxLoad (s : Sched) : Int :=
  s.machine_loads.getD (bottleneckIdx s) 0 - (taskToMove s).2

/-- `new_min_load = self.machine_loads[min_machine] + task_to_move[1]`. -/
def newMinLoad (s : Sched) : Int :=
  s.machine_loads.getD (minIdx s) 0 + (taskToMove s).2

/-- `new_makespan = max(max(loads of the other machines), new_max_load,
new_min_load)` given the maximum `om` of the other machines' loads. -/
def newMakespanOf (s : Sched) (om : Int) : Int :=
  max (max om (newMaxLoad s)) (newMinLoad s)

/-- The in-place mutation performed when a move is committed: pop the task
from the bottleneck sequence, append it to the least loaded machine's
sequence (reading that sequence after the pop, as the Python code does),
update both loads in that order, and store the new makespan. -/
def commitState (s : Sched) (nm : Int) : Sched :=
  let sched1 := s.schedule.set (bottleneckIdx s)
    ((bottleneckSched s).eraseIdx (largestTaskIdx s))
  { s with
    schedule := sched1.set (minIdx s) ((sched1.getD (minIdx s) []) ++ [taskToMove s])
    machine_loads :=
      (s.machine_loads.set (bottleneckIdx s) (newMaxLoad s)).set (minIdx s) (newMinLoad s)
    makespan := nm }

/-- Outcome of one execution of the body of the `while` loop of
`local_search_optimization`: the loop exits normally (`stop`: either the
bottleneck sequence is empty, or the hypothetical makespan is not an
improvement), commits a move, or raises `ValueError` (`error`: `max()` over
an empty generator, or over empty `machine_loads`). `stop` and `error`
leave the instance state unchanged. -/
inductive LSStep where
  | stop : LSStep
  | commit : Sched → LSStep
  | error : LSStep
deriving DecidableEq

/-- One execution of the body of the `while` loop of
`local_search_optimization`, faithful to the Python control flow: the
machine loads maximum is taken first (raising on an empty list), the loop
breaks on an empty bottleneck sequence, the inner `max` over the other
machines' loads raises on an empty generator, and the move is committed
exactly when the hypothetical makespan strictly improves.  `pyMin` is total
here because `machine_loads` is non-empty whenever this point is reached. -/
def lsStep (s : Sched) : LSStep :=
  match pyMax s.machine_loads with
  | none => .error
  | some _ =>
    if bottleneckSched s = [] then .stop
    else
      match pyMax ((otherIdxs s).map (fun i => s.machine_loads.getD i 0)) with
      | none => .error
      | some om =>
        if newMakespanOf s om < s.makespan then .commit (commitState s (newMakespanOf s om))
        else .stop

/-- Result of `local_search_optimization`: either a normal return of the
final state with the number of performed iterations (`ok`), or a propagated
`ValueError` (`err`) with the state the instance holds at the raise point
(the raise happens before any mutation of the iteration, so that state is
the state at the start of the failing iteration). -/
inductive LSResult where
  | ok : Sched → Nat → LSResult
  | err : Sched → Nat → LSResult
deriving DecidableEq

/-- The instance state carried by a `LSResult`. -/
def LSResult.state : LSResult → Sched
  | .ok s _ => s
  | .err s _ => s

/-- The iteration count carried by a `LSResult`. -/
def LSResult.iterations : LSResult → Nat
  | .ok _ n => n
  | .err _ n => n

/-- The `while improved and iterations < max_iterations` loop, structurally
recursive on the remaining iteration budget `max_iterations - iterations`
(each committed move increments `iterations` by one, and only committed
moves keep `improved` true). -/
def lsRun : Sched → Nat → Nat → LSResult
  | s, iterations, 0 => .ok s iterations
  | s, iterations, remaining + 1 =>
    match lsStep s with
    | .stop => .ok s iterations
    | .error => .err s iterations
    | .commit s1 => lsRun s1 (iterations + 1) remaining

/-- `TaskScheduler.local_search_optimization(max_iterations)`: run the
improvement loop starting from zero performed iterations. -/
def localSearchOptimization (s : Sched) (max_iterations : Nat) : LSResult :=
  lsRun s 0 max_iterations

/-- Sample variance as `statistics.variance` computes it (exactly, over the
rationals): sum of squared deviations from the mean divided by `n - 1`. -/
def sampleVariance (l : List Int) : ℚ :=
  let n : ℚ := l.length
  let mean : ℚ := (l.map (fun x : Int => (x : ℚ))).sum / n
  (l.map (fun x : Int => ((x : ℚ) - mean) ^ 2)).sum / (n - 1)

/-- The metric record returned by `calculate_statistics` (the advisory
`execution_time` entry is not modelled; `load_std_dev` is modelled
separately since it lives in the reals). -/
structure Stats where
  total_tasks : Nat
  num_machines : Int
  total_work : Int
  makespan : Int
  average_load : ℚ
  load_variance : ℚ
  min_load : Int
  max_load : Int
  utilizations : List ℚ
  average_utilization : ℚ
  efficiency : ℚ
  lower_bound : ℚ
  approximation_ratio : ℚ
deriving DecidableEq

/-- `TaskScheduler.calculate_statistics`, faithful to the Python evaluation
order of the fallible operations: `total_work / self.num_machines` raises
`ZeroDivisionError` when `num_machines = 0`; `max(self.tasks)` raises
`ValueError` on an empty task list; `min`/`max` of the machine loads raise
on an empty loads list (only possible when `num_machines = 0`, already
caught by the first guard). -/
def calculateStatisticsE (s : Sched) : Except String Stats :=
  if s.num_machines = 0 then .error "ZeroDivisionError: division by zero" else
  let total_work := s.tasks.sum
  let average_load : ℚ := (total_work : ℚ) / (s.num_machines : ℚ)
  let load_variance : ℚ :=
    if 1 < s.machine_loads.length then sampleVariance s.machine_loads else 0
  let utilizations : List ℚ := s.machine_loads.map
    (fun load : Int => if 0 < s.makespan then (load : ℚ) / (s.makespan : ℚ) * 100 else 0)
  let efficiency : ℚ :=
    if 0 < s.makespan then average_load / (s.makespan : ℚ) * 100 else 0
  match pyMax s.tasks with
  | none => .error "ValueError: max() arg is an empty sequence"
  | some max_task =>
    let lower_bound : ℚ := max average_load (max_task : ℚ)
    let approximation_ratio : ℚ :=
      if 0 < lower_bound then (s.makespan : ℚ) / lower_bound else 1
    match pyMin s.machine_loads, pyMax s.machine_loads with
    | some mn, some mx =>
      .ok { total_tasks := s.tasks.length
            num_machines := s.num_machines
            total_work := total_work
            makespan := s.makespan
            average_load := average_load
            load_variance := load_variance
            min_load := mn
            max_load := mx
            utilizations := utilizations
            average_utilization := utilizations.sum / (utilizations.length : ℚ)
            efficiency := efficiency
            lower_bound := lower_bound
            approximation_ratio := approximation_ratio }
    | _, _ => .error "ValueError: arg is an empty sequence"

/-- The `statistics.stdev` entry of `calculate_statistics`: square root of
the sample variance when there is more than one machine load, else `0`. -/
noncomputable def loadStdDev (s : Sched) : ℝ :=
  if 1 < s.machine_loads.length then Real.sqrt ((sampleVariance s.machine_loads : ℚ) : ℝ)
  else 0

/-- The two-stage pipeline: `lpt_schedule` followed by
`local_search_optimization` with the given iteration cap. -/
def runPipeline (tasks : List Int) (m : Int) (cap : Nat) : Except String LSResult :=
  match lptScheduleE (initScheduler tasks m) with
  | .error e => .error e
  | .ok st => .ok (localSearchOptimization st cap)

/-- Spec-side description (§4.1 step 3) of one greedy assignment: the task
goes to the machine with minimum current load, ties broken in favour of the
lower machine id; its sequence and load are updated. -/
def specAssign (st : List (List (Nat × Int)) × List Int) (t : Nat × Int) :
    List (List (Nat × Int)) × List Int :=
  let loads := st.2
  let j := pyIndex (pyMinD loads) loads
  (st.1.set j ((st.1.getD j []) ++ [t]), loads.set j (loads.getD j 0 + t.2))

/-- The multiset of `(load, machine id)` pairs a well-formed heap holds for
a given loads list. -/
def heapOf (lds : List Int) : List (Int × Nat) :=
  (List.range lds.length).map (fun i => (lds.getD i 0, i))

/-- Spec-side: `j` is the position of the maximum of `l`, ties resolved to
the lowest index (every earlier entry is strictly smaller). -/
def isLeastIdxOfMax (l : List Int) (j : Nat) : Prop :=
  j < l.length ∧ (∀ k, k < l.length → l.getD k 0 ≤ l.getD j 0) ∧
    ∀ k, k < j → l.getD k 0 < l.getD j 0

/-- Spec-side: `j` is the position of the minimum of `l`, ties resolved to
the lowest index. -/
def isLeastIdxOfMin (l : List Int) (j : Nat) : Prop :=
  j < l.length ∧ (∀ k, k < l.length → l.getD j 0 ≤ l.getD k 0) ∧
    ∀ k, k < j → l.getD j 0 < l.getD k 0

/-- Spec-side (§4.2 step 3): position `p` holds a task of maximal duration
in the sequence, and every earlier position holds a strictly smaller
duration (ties resolved by earliest position). -/
def isSpecCandidate (msched : List (Nat × Int)) (p : Nat) : Prop :=
  p < msched.length ∧ (∀ q, q < msched.length → (msched.getD q (0, 0)).2 ≤ (msched.getD p (0, 0)).2) ∧
    ∀ q, q < p → (msched.getD q (0, 0)).2 < (msched.getD p (0, 0)).2

/-- Spec-side (§4.2 step 5): `v` is the hypothetical makespan of moving the
selected task from the bottleneck machine to the least loaded machine: the
maximum of all other machines' unchanged loads, the bottleneck load minus
the task duration, and the target load plus the task duration. -/
def isHypMakespan (s : Sched) (v : Int) : Prop :=
  (∀ i, i < s.num_machines.toNat → i ≠ bottleneckIdx s → i ≠ minIdx s →
      s.machine_loads.getD i 0 ≤ v) ∧
  s.machine_loads.getD (bottleneckIdx s) 0 - (taskToMove s).2 ≤ v ∧
  s.machine_loads.getD (minIdx s) 0 + (taskToMove s).2 ≤ v ∧
  (v = s.machine_loads.getD (bottleneckIdx s) 0 - (taskToMove s).2 ∨
   v = s.machine_loads.getD (minIdx s) 0 + (taskToMove s).2 ∨
   ∃ i, i < s.num_machines.toNat ∧ i ≠ bottleneckIdx s ∧ i ≠ minIdx s ∧
     s.machine_loads.getD i 0 = v)

/-- Spec-side description (§4.2 step 6) of a committed move: remove the
selected task from the bottleneck sequence, append it to the target
machine's original sequence, update both loads, store the new makespan. -/
def specMove (s : Sched) (nm : Int) : Sched :=
  { s with
    schedule := (s.schedule.set (bottleneckIdx s)
        ((bottleneckSched s).eraseIdx (largestTaskIdx s))).set (minIdx s)
        ((s.schedule.getD (minIdx s) []) ++ [taskToMove s])
    machine_loads :=
      (s.machine_loads.set (bottleneckIdx s) (newMaxLoad s)).set (minIdx s) (newMinLoad s)
    makespan := nm }

/-- Spec-side closed form of the sample variance of `l` (length `n`):
`(n * sum of squares - square of sum) / (n * (n - 1))`. -/
def specSampleVariance (l : List Int) : ℚ :=
  ((l.length : ℚ) * (l.map (fun x : Int => (x : ℚ) ^ 2)).sum -
      ((l.map (fun x : Int => (x : ℚ))).sum) ^ 2) /
    ((l.length : ℚ) * ((l.length : ℚ) - 1))

/-- Structural invariant maintained by the scheduler between `lpt_schedule`
and the local-search iterations: the stored makespan is the maximum machine
load, schedule and loads have one entry per machine, there is at least one
machine, and every scheduled task has a non-negative duration. -/
def LSInv (s : Sched) : Prop :=
  pyMax s.machine_loads = some s.makespan ∧
  s.machine_loads.length = s.num_machines.toNat ∧
  s.schedule.length = s.num_machines.toNat ∧
  1 ≤ s.num_machines ∧
  ∀ l ∈ s.schedule, ∀ p ∈ l, 0 ≤ p.2

/-- The scheduler state produced by `lpt_schedule` on tasks `[3]` with two
machines: the single task of duration 3 sits on machine 0, machine 1 is
empty, the loads are `[3, 0]` and the makespan is 3. -/
def twoMachineState : Sched :=
  { tasks := [3], num_machines := 2, schedule := [[(0, 3)], []],
    machine_loads := [3, 0], makespan := 3 }

/-- The scheduler state produced by `lpt_schedule` on an empty task list
with three machines. -/
def emptyState3 : Sched :=
  { tasks := [], num_machines := 3, schedule := [[], [], []],
    machine_loads := [0, 0, 0], makespan := 0 }

/-- The scheduler state produced by `lpt_schedule` on tasks `[3]` with a
single machine. -/
def oneMachineState : Sched :=
  { tasks := [3], num_machines := 1, schedule := [[(0, 3)]],
    machine_loads := [3], makespan := 3 }

instance (s : Sched) : Decidable (LSInv s) := by
  unfold LSInv
  infer_instance

/-! ### Characterisations of the Python primitives -/

theorem foldl_max_spec (xs : List Int) : ∀ a : Int,
    (xs.foldl max a = a ∨ xs.foldl max a ∈ xs) ∧ a ≤ xs.foldl max a ∧
      ∀ x ∈ xs, x ≤ xs.foldl max a := by
  induction xs with
  | nil => intro a; simp
  | cons x xs ih =>
    intro a
    simp only [List.foldl_cons]
    obtain ⟨hmem, hle, hub⟩ := ih (max a x)
    refine ⟨?_, le_trans (le_max_left a x) hle, ?_⟩
    · rcases hmem with h | h
      · rcases max_choice a x with hc | hc
        · exact Or.inl (h.trans hc)
        · exact Or.inr (by rw [h, hc]; exact List.mem_cons_self x xs)
      · exact Or.inr (List.mem_cons_of_mem _ h)
    · intro y hy
      rcases List.mem_cons.mp hy with rfl | hy
      · exact le_trans (le_max_right a y) hle
      · exact hub y hy

theorem foldl_min_spec (xs : List Int) : ∀ a : Int,
    (xs.foldl min a = a ∨ xs.foldl min a ∈ xs) ∧ xs.foldl min a ≤ a ∧
      ∀ x ∈ xs, xs.foldl min a ≤ x := by
  induction xs with
  | nil => intro a; simp
  | cons x xs ih =>
    intro a
    simp only [List.foldl_cons]
    obtain ⟨hmem, hle, hlb⟩ := ih (min a x)
    refine ⟨?_, le_trans hle (min_le_left a x), ?_⟩
    · rcases hmem with h | h
      · rcases min_choice a x with hc | hc
        · exact Or.inl (h.trans hc)
        · exact Or.inr (by rw [h, hc]; exact List.mem_cons_self x xs)
      · exact Or.inr (List.mem_cons_of_mem _ h)
    · intro y hy
      rcases List.mem_cons.mp hy with rfl | hy
      · exact le_trans hle (min_le_right a y)
      · exact hlb y hy

theorem pyMax_eq_some_iff {l : List Int} {v : Int} :
    pyMax l = some v ↔ v ∈ l ∧ ∀ x ∈ l, x ≤ v := by
  constructor
  · intro h
    cases l with
    | nil => simp [pyMax] at h
    | cons x xs =>
      simp only [pyMax, Option.some.injEq] at h
      obtain ⟨hmem, hle, hub⟩ := foldl_max_spec xs x
      subst h
      refine ⟨?_, ?_⟩
      · rcases hmem with h | h
        · rw [h]; exact List.mem_cons_self x xs
        · exact List.mem_cons_of_mem _ h
      · intro y hy
        rcases List.mem_cons.mp hy with rfl | hy
        · exact hle
        · exact hub y hy
  · rintro ⟨hv, hub⟩
    cases l with
    | nil => exact absurd hv (List.not_mem_nil v)
    | cons x xs =>
      obtain ⟨hmem, hle, hub2⟩ := foldl_max_spec xs x
      have h1 : xs.foldl max x ≤ v := by
        rcases hmem with h | h
        · rw [h]; exact hub x (List.mem_cons_self x xs)
        · exact hub _ (List.mem_cons_of_mem _ h)
      have h2 : v ≤ xs.foldl max x := by
        rcases List.mem_cons.mp hv with rfl | h
        · exact hle
        · exact hub2 v h
      simp only [pyMax, Option.some.injEq]
      exact le_antisymm h1 h2

theorem pyMin_eq_some_iff {l : List Int} {v : Int} :
    pyMin l = some v ↔ v ∈ l ∧ ∀ x ∈ l, v ≤ x := by
  constructor
  · intro h
    cases l with
    | nil => simp [pyMin] at h
    | cons x xs =>
      simp only [pyMin, Option.some.injEq] at h
      obtain ⟨hmem, hle, hlb⟩ := foldl_min_spec xs x
      subst h
      refine ⟨?_, ?_⟩
      · rcases hmem with h | h
        · rw [h]; exact List.mem_cons_self x xs
        · exact List.mem_cons_of_mem _ h
      · intro y hy
        rcases List.mem_cons.mp hy with rfl | hy
        · exact hle
        · exact hlb y hy
  · rintro ⟨hv, hlb⟩
    cases l with
    | nil => exact absurd hv (List.not_mem_nil v)
    | cons x xs =>
      obtain ⟨hmem, hle, hlb2⟩ := foldl_min_spec xs x
      have h1 : v ≤ xs.foldl min x := by
        rcases hmem with h | h
        · rw [h]; exact hlb x (List.mem_cons_self x xs)
        · exact hlb _ (List.mem_cons_of_mem _ h)
      have h2 : xs.foldl min x ≤ v := by
        rcases List.mem_cons.mp hv with rfl | h
        · exact hle
        · exact hlb2 v h
      simp only [pyMin, Option.some.injEq]
      exact le_antisymm h2 h1

theorem pyMax_isSome {l : List Int} (hl : l ≠ []) : ∃ v, pyMax l = some v := by
  cases l with
  | nil => exact absurd rfl hl
  | cons x xs => exact ⟨xs.foldl max x, rfl⟩

theorem pyMin_isSome {l : List Int} (hl : l ≠ []) : ∃ v, pyMin l = some v := by
  cases l with
  | nil => exact absurd rfl hl
  | cons x xs => exact ⟨xs.foldl min x, rfl⟩

theorem pyIndex_spec {a : Int} : ∀ {l : List Int}, a ∈ l →
    pyIndex a l < l.length ∧ l.getD (pyIndex a l) 0 = a ∧
      ∀ k, k < pyIndex a l → l.getD k 0 ≠ a := by
  intro l
  induction l with
  | nil => intro h; exact absurd h (List.not_mem_nil a)
  | cons x xs ih =>
    intro h
    by_cases hx : x = a
    · refine ⟨by simp [pyIndex, hx], by simp [pyIndex, hx], ?_⟩
      intro k hk
      simp [pyIndex, hx] at hk
    · have hmem : a ∈ xs := by
        rcases List.mem_cons.mp h with rfl | h2
        · exact absurd rfl hx
        · exact h2
      obtain ⟨h1, h2, h3⟩ := ih hmem
      refine ⟨?_, ?_, ?_⟩
      · simp only [pyIndex, if_neg hx, List.length_cons]; omega
      · simpa [pyIndex, if_neg hx] using h2
      · intro k hk
        simp only [pyIndex, if_neg hx] at hk
        cases k with
        | zero => simpa using hx
        | succ k =>
          simp only [List.getD_cons_succ]
          exact h3 k (by omega)

/-- Helper: `getD` of an index known to be in range is a member. -/
theorem getD_mem {α : Type _} {l : List α} {j : Nat} (d : α) (h : j < l.length) :
    l.getD j d ∈ l := by
  rw [List.getD_eq_getElem l d h]
  exact List.getElem_mem h

theorem getD_set_self {α : Type _} (l : List α) (j : Nat) (a d : α) (h : j < l.length) :
    (l.set j a).getD j d = a := by
  rw [List.getD_eq_getElem?_getD, List.getElem?_set]
  simp [h]

theorem getD_set_ne {α : Type _} (l : List α) {i j : Nat} (a d : α) (h : i ≠ j) :
    (l.set i a).getD j d = l.getD j d := by
  rw [List.getD_eq_getElem?_getD, List.getElem?_set, if_neg h, ← List.getD_eq_getElem?_getD]

theorem sum_set (l : List Int) : ∀ (j : Nat), j < l.length → ∀ (a : Int),
    (l.set j a).sum = l.sum - l.getD j 0 + a := by
  induction l with
  | nil => intro j hj; simp at hj
  | cons x xs ih =>
    intro j hj a
    cases j with
    | zero => simp [List.set_cons_zero]; ring
    | succ j =>
      simp only [List.set_cons_succ, List.sum_cons, List.getD_cons_succ]
      rw [ih j (by simpa using hj) a]
      ring

/-! ### The argmax scan of `max(range(len(...)), key=...)` -/

theorem pyArgmaxAux_spec (f : Nat → Int) : ∀ (xs : List Nat) (best : Nat),
    (pyArgmaxAux f best xs = best ∨ pyArgmaxAux f best xs ∈ xs) ∧
    f best ≤ f (pyArgmaxAux f best xs) ∧
    (∀ x ∈ xs, f x ≤ f (pyArgmaxAux f best xs)) ∧
    (pyArgmaxAux f best xs ≠ best → f best < f (pyArgmaxAux f best xs)) ∧
    ((∀ x ∈ xs, best < x) → List.Pairwise (· < ·) xs →
      ∀ y, y = best ∨ y ∈ xs → y < pyArgmaxAux f best xs →
        f y < f (pyArgmaxAux f best xs)) := by
  intro xs
  induction xs with
  | nil =>
    intro best
    refine ⟨Or.inl rfl, le_refl _, by simp, by simp [pyArgmaxAux], ?_⟩
    intro _ _ y hy hlt
    rcases hy with rfl | hy
    · exact absurd hlt (lt_irrefl y)
    · exact absurd hy (List.not_mem_nil y)
  | cons x xs ih =>
    intro best
    simp only [pyArgmaxAux]
    by_cases hfx : f best < f x
    · rw [if_pos hfx]
      obtain ⟨imem, ile, iub, istrict, ifirst⟩ := ih x
      refine ⟨?_, le_of_lt (lt_of_lt_of_le hfx ile), ?_, fun _ => lt_of_lt_of_le hfx ile, ?_⟩
      · rcases imem with h | h
        · exact Or.inr (by rw [h]; exact List.mem_cons_self x xs)
        · exact Or.inr (List.mem_cons_of_mem _ h)
      · intro y hy
        rcases List.mem_cons.mp hy with rfl | hy
        · exact ile
        · exact iub y hy
      · intro hlt hpw y hy hylt
        obtain ⟨hx_all, hpw2⟩ := List.pairwise_cons.mp hpw
        rcases hy with rfl | hy
        · exact lt_of_lt_of_le hfx ile
        · rcases List.mem_cons.mp hy with rfl | hy
          · exact ifirst hx_all hpw2 y (Or.inl rfl) hylt
          · exact ifirst hx_all hpw2 y (Or.inr hy) hylt
    · rw [if_neg hfx]
      obtain ⟨imem, ile, iub, istrict, ifirst⟩ := ih best
      refine ⟨?_, ile, ?_, istrict, ?_⟩
      · rcases imem with h | h
        · exact Or.inl h
        · exact Or.inr (List.mem_cons_of_mem _ h)
      · intro y hy
        rcases List.mem_cons.mp hy with rfl | hy
        · exact le_trans (not_lt.mp hfx) ile
        · exact iub y hy
      · intro hlt hpw y hy hylt
        obtain ⟨hx_all, hpw2⟩ := List.pairwise_cons.mp hpw
        have hltxs : ∀ z ∈ xs, best < z := fun z hz => hlt z (List.mem_cons_of_mem _ hz)
        rcases hy with rfl | hy
        · exact ifirst hltxs hpw2 y (Or.inl rfl) hylt
        · rcases List.mem_cons.mp hy with rfl | hy
          · rcases imem with h | h
            · exact absurd (h ▸ hylt) (by have := hlt y (List.mem_cons_self y xs); omega)
            · have hne : pyArgmaxAux f best xs ≠ best :=
                (hlt _ (List.mem_cons_of_mem _ h)).ne'
              exact lt_of_le_of_lt (not_lt.mp hfx) (istrict hne)
          · exact ifirst hltxs hpw2 y (Or.inr hy) hylt

theorem pyArgmax_range_spec (f : Nat → Int) (n : Nat) (hn : 0 < n) :
    pyArgmax f (List.range n) < n ∧
    (∀ q, q < n → f q ≤ f (pyArgmax f (List.range n))) ∧
    ∀ q, q < pyArgmax f (List.range n) → f q < f (pyArgmax f (List.range n)) := by
  obtain ⟨k, rfl⟩ : ∃ k, n = k + 1 := ⟨n - 1, by omega⟩
  rw [List.range_succ_eq_map]
  simp only [pyArgmax]
  obtain ⟨imem, ile, iub, istrict, ifirst⟩ :=
    pyArgmaxAux_spec f (List.map Nat.succ (List.range k)) 0
  have hmem_succ : ∀ z ∈ List.map Nat.succ (List.range k), 0 < z := by
    intro z hz
    obtain ⟨w, _, rfl⟩ := List.mem_map.mp hz
    omega
  have hpw : List.Pairwise (· < ·) (List.map Nat.succ (List.range k)) :=
    List.Pairwise.map _ (fun a b h => Nat.succ_lt_succ h) (List.pairwise_lt_range k)
  have hrlt : pyArgmaxAux f 0 (List.map Nat.succ (List.range k)) < k + 1 := by
    rcases imem with h | h
    · omega
    · obtain ⟨w, hw, hweq⟩ := List.mem_map.mp h
      have := List.mem_range.mp hw
      omega
  refine ⟨hrlt, ?_, ?_⟩
  · intro q hq
    rcases Nat.eq_zero_or_pos q with rfl | hqpos
    · exact ile
    · exact iub q (List.mem_map.mpr ⟨q - 1, List.mem_range.mpr (by omega), by omega⟩)
  · intro q hq
    have hqn : q < k + 1 := lt_trans hq hrlt
    rcases Nat.eq_zero_or_pos q with rfl | hqpos
    · exact ifirst hmem_succ hpw 0 (Or.inl rfl) hq
    · exact ifirst hmem_succ hpw q
        (Or.inr (List.mem_map.mpr ⟨q - 1, List.mem_range.mpr (by omega), by omega⟩)) hq

/-! ### The heap extract-min -/

theorem pairLt_trans {a b c : Int × Nat} (h1 : pairLt a b) (h2 : pairLt b c) : pairLt a c := by
  unfold pairLt at h1 h2 ⊢; omega

theorem pairLt_irrefl (a : Int × Nat) : ¬ pairLt a a := by
  unfold pairLt; omega

theorem pairLt_neg_trans {a b c : Int × Nat} (h1 : ¬ pairLt a b) (h2 : ¬ pairLt b c) :
    ¬ pairLt a c := by
  unfold pairLt at h1 h2 ⊢; omega

theorem heapMin_fold_spec : ∀ (xs : List (Int × Nat)) (b : Int × Nat),
    (xs.foldl (fun b y => if pairLt y b then y else b) b = b ∨
     xs.foldl (fun b y => if pairLt y b then y else b) b ∈ xs) ∧
    ¬ pairLt b (xs.foldl (fun b y => if pairLt y b then y else b) b) ∧
    ∀ x ∈ xs, ¬ pairLt x (xs.foldl (fun b y => if pairLt y b then y else b) b) := by
  intro xs
  induction xs with
  | nil => intro b; exact ⟨Or.inl rfl, pairLt_irrefl b, by simp⟩
  | cons y ys ih =>
    intro b
    simp only [List.foldl_cons]
    by_cases hy : pairLt y b
    · rw [if_pos hy]
      obtain ⟨imem, inot, iub⟩ := ih y
      refine ⟨?_, ?_, ?_⟩
      · rcases imem with h | h
        · exact Or.inr (by rw [h]; exact List.mem_cons_self y ys)
        · exact Or.inr (List.mem_cons_of_mem _ h)
      · intro hcon
        exact inot (pairLt_trans hy hcon)
      · intro x hx
        rcases List.mem_cons.mp hx with rfl | hx
        · exact inot
        · exact iub x hx
    · rw [if_neg hy]
      obtain ⟨imem, inot, iub⟩ := ih b
      refine ⟨?_, inot, ?_⟩
      · rcases imem with h | h
        · exact Or.inl h
        · exact Or.inr (List.mem_cons_of_mem _ h)
      · intro x hx
        rcases List.mem_cons.mp hx with rfl | hx
        · exact pairLt_neg_trans hy inot
        · exact iub x hx

theorem heapMin_spec {l : List (Int × Nat)} {e : Int × Nat} (h : heapMin l = some e) :
    e ∈ l ∧ ∀ x ∈ l, ¬ pairLt x e := by
  cases l with
  | nil => simp [heapMin] at h
  | cons x xs =>
    simp only [heapMin, Option.some.injEq] at h
    obtain ⟨imem, inot, iub⟩ := heapMin_fold_spec xs x
    subst h
    refine ⟨?_, ?_⟩
    · rcases imem with h | h
      · rw [h]; exact List.mem_cons_self x xs
      · exact List.mem_cons_of_mem _ h
    · intro y hy
      rcases List.mem_cons.mp hy with rfl | hy
      · exact inot
      · exact iub y hy

theorem heapMin_eq_of_min {l : List (Int × Nat)} {e : Int × Nat}
    (he : e ∈ l) (hmin : ∀ x ∈ l, x = e ∨ pairLt e x) : heapMin l = some e := by
  have hne : l ≠ [] := by intro h; rw [h] at he; exact absurd he (List.not_mem_nil e)
  obtain ⟨r, hr⟩ : ∃ r, heapMin l = some r := by
    cases l with
    | nil => exact absurd rfl hne
    | cons x xs => exact ⟨_, rfl⟩
  obtain ⟨hrmem, hrmin⟩ := heapMin_spec hr
  rcases hmin r hrmem with rfl | hlt
  · exact hr
  · exact absurd hlt (hrmin e he)

/-! ### The heap invariant and the LPT assignment loop -/

theorem pyIndexMin_spec {lds : List Int} (h : lds ≠ []) :
    pyIndex (pyMinD lds) lds < lds.length ∧
    lds.getD (pyIndex (pyMinD lds) lds) 0 = pyMinD lds ∧
    (∀ k, k < pyIndex (pyMinD lds) lds → lds.getD k 0 ≠ pyMinD lds) ∧
    ∀ x ∈ lds, pyMinD lds ≤ x := by
  obtain ⟨mn, hmn⟩ := pyMin_isSome h
  have hD : pyMinD lds = mn := by simp [pyMinD, hmn]
  obtain ⟨hmem, hlb⟩ := pyMin_eq_some_iff.mp hmn
  rw [hD]
  obtain ⟨h1, h2, h3⟩ := pyIndex_spec hmem
  exact ⟨h1, h2, h3, hlb⟩

theorem removeOne_perm {α : Type _} [DecidableEq α] {e : α} :
    ∀ {l : List α}, e ∈ l → List.Perm l (e :: removeOne e l) := by
  intro l
  induction l with
  | nil => intro h; exact absurd h (List.not_mem_nil e)
  | cons x xs ih =>
    intro h
    by_cases hx : x = e
    · subst hx
      simp [removeOne]
    · have hmem : e ∈ xs := by
        rcases List.mem_cons.mp h with rfl | h2
        · exact absurd rfl hx
        · exact h2
      simp only [removeOne, if_neg hx]
      exact ((ih hmem).cons x).trans (List.Perm.swap e x _)

theorem removeOne_map {α β : Type _} [DecidableEq α] [DecidableEq β] {f : α → β}
    (hf : Function.Injective f) (a : α) :
    ∀ l : List α, removeOne (f a) (l.map f) = (removeOne a l).map f := by
  intro l
  induction l with
  | nil => rfl
  | cons x xs ih =>
    by_cases hx : x = a
    · subst hx
      simp [removeOne]
    · have hfx : f x ≠ f a := fun h => hx (hf h)
      simp only [List.map_cons, removeOne, if_neg hfx, if_neg hx, ih]

theorem mem_removeOne_ne {α : Type _} [DecidableEq α] {e a : α} :
    ∀ {l : List α}, l.Nodup → a ∈ removeOne e l → a ≠ e := by
  intro l
  induction l with
  | nil => intro _ h; simp [removeOne] at h
  | cons x xs ih =>
    intro hnd h
    obtain ⟨hx_notmem, hnd2⟩ := List.nodup_cons.mp hnd
    by_cases hx : x = e
    · subst hx
      simp only [removeOne, if_pos rfl] at h
      intro hae
      subst hae
      exact hx_notmem h
    · simp only [removeOne, if_neg hx] at h
      rcases List.mem_cons.mp h with rfl | h2
      · exact hx
      · exact ih hnd2 h2

theorem heapMin_of_perm_heapOf {heap : List (Int × Nat)} {lds : List Int}
    (hlds : lds ≠ []) (hperm : List.Perm heap (heapOf lds)) :
    heapMin heap = some (pyMinD lds, pyIndex (pyMinD lds) lds) := by
  obtain ⟨hjlt, hjval, hjfirst, hlb⟩ := pyIndexMin_spec hlds
  apply heapMin_eq_of_min
  · rw [hperm.mem_iff]
    refine List.mem_map.mpr ⟨pyIndex (pyMinD lds) lds, List.mem_range.mpr hjlt, ?_⟩
    rw [hjval]
  · intro x hx
    rw [hperm.mem_iff] at hx
    obtain ⟨i, hi, rfl⟩ := List.mem_map.mp hx
    rw [List.mem_range] at hi
    by_cases hieq : lds.getD i 0 = pyMinD lds
    · by_cases hij : i = pyIndex (pyMinD lds) lds
      · left
        subst hij
        rw [hieq]
      · right
        have hji : pyIndex (pyMinD lds) lds < i := by
          rcases Nat.lt_or_ge i (pyIndex (pyMinD lds) lds) with hlt | hge
          · exact absurd hieq (hjfirst i hlt)
          · omega
        unfold pairLt
        dsimp only
        omega
    · right
      have hle := hlb (lds.getD i 0) (getD_mem 0 hi)
      unfold pairLt
      dsimp only
      omega

theorem heapOf_remove_push {lds : List Int} (hlds : lds ≠ []) (v : Int) :
    List.Perm (removeOne (pyMinD lds, pyIndex (pyMinD lds) lds) (heapOf lds) ++
        [(v, pyIndex (pyMinD lds) lds)])
      (heapOf (lds.set (pyIndex (pyMinD lds) lds) v)) := by
  obtain ⟨hjlt, hjval, hjf, hlb⟩ := pyIndexMin_spec hlds
  have hinj : Function.Injective (fun i => (lds.getD i 0, i)) := by
    intro a b hab
    simpa using congrArg Prod.snd hab
  have hpair : (pyMinD lds, pyIndex (pyMinD lds) lds) =
      (fun i => (lds.getD i 0, i)) (pyIndex (pyMinD lds) lds) := by
    dsimp only
    rw [hjval]
  have hrm : removeOne (pyMinD lds, pyIndex (pyMinD lds) lds) (heapOf lds) =
      (removeOne (pyIndex (pyMinD lds) lds) (List.range lds.length)).map
        (fun i => (lds.getD i 0, i)) := by
    rw [hpair]
    unfold heapOf
    exact removeOne_map hinj _ _
  rw [hrm]
  refine (List.perm_append_singleton _ _).trans ?_
  have hmapeq : (removeOne (pyIndex (pyMinD lds) lds) (List.range lds.length)).map
        (fun i => (lds.getD i 0, i)) =
      (removeOne (pyIndex (pyMinD lds) lds) (List.range lds.length)).map
        (fun i => ((lds.set (pyIndex (pyMinD lds) lds) v).getD i 0, i)) := by
    apply List.map_congr_left
    intro i hi
    have hne : i ≠ pyIndex (pyMinD lds) lds := mem_removeOne_ne (List.nodup_range _) hi
    rw [getD_set_ne lds v 0 (Ne.symm hne)]
  have hvj : (v, pyIndex (pyMinD lds) lds) =
      ((lds.set (pyIndex (pyMinD lds) lds) v).getD (pyIndex (pyMinD lds) lds) 0,
        pyIndex (pyMinD lds) lds) := by
    rw [getD_set_self lds (pyIndex (pyMinD lds) lds) v 0 hjlt]
  rw [hmapeq, hvj]
  have hp : List.Perm (List.range lds.length)
      ((pyIndex (pyMinD lds) lds) ::
        removeOne (pyIndex (pyMinD lds) lds) (List.range lds.length)) :=
    removeOne_perm (List.mem_range.mpr hjlt)
  have hmain := (hp.map (fun i => ((lds.set (pyIndex (pyMinD lds) lds) v).getD i 0, i))).symm
  rw [List.map_cons] at hmain
  refine hmain.trans ?_
  unfold heapOf
  rw [List.length_set]

theorem lptStep_spec {sch : List (List (Nat × Int))} {lds : List Int}
    {heap : List (Int × Nat)} (t : Nat × Int)
    (hlds : lds ≠ []) (hperm : List.Perm heap (heapOf lds)) :
    ∃ heap2, lptStep ⟨sch, lds, heap⟩ t =
        some ⟨(specAssign (sch, lds) t).1, (specAssign (sch, lds) t).2, heap2⟩ ∧
      List.Perm heap2 (heapOf (specAssign (sch, lds) t).2) := by
  obtain ⟨hjlt, hjval, hjf, hlb⟩ := pyIndexMin_spec hlds
  have hpop : heapPop heap = some ((pyMinD lds, pyIndex (pyMinD lds) lds),
      removeOne (pyMinD lds, pyIndex (pyMinD lds) lds) heap) := by
    unfold heapPop
    rw [heapMin_of_perm_heapOf hlds hperm]
    rfl
  have hloads : (specAssign (sch, lds) t).2 =
      lds.set (pyIndex (pyMinD lds) lds) (pyMinD lds + t.2) := by
    simp only [specAssign]
    rw [hjval]
  have hsched : (specAssign (sch, lds) t).1 =
      sch.set (pyIndex (pyMinD lds) lds)
        ((sch.getD (pyIndex (pyMinD lds) lds) []) ++ [t]) := by
    simp only [specAssign]
  have hmemh : (pyMinD lds, pyIndex (pyMinD lds) lds) ∈ heapOf lds := by
    refine List.mem_map.mpr ⟨pyIndex (pyMinD lds) lds, List.mem_range.mpr hjlt, ?_⟩
    rw [hjval]
  have hmem1 : (pyMinD lds, pyIndex (pyMinD lds) lds) ∈ heap := hperm.mem_iff.mpr hmemh
  have hrmperm : List.Perm (removeOne (pyMinD lds, pyIndex (pyMinD lds) lds) heap)
      (removeOne (pyMinD lds, pyIndex (pyMinD lds) lds) (heapOf lds)) :=
    List.Perm.cons_inv
      (((removeOne_perm hmem1).symm.trans hperm).trans (removeOne_perm hmemh))
  refine ⟨removeOne (pyMinD lds, pyIndex (pyMinD lds) lds) heap ++
      [(pyMinD lds + t.2, pyIndex (pyMinD lds) lds)], ?_, ?_⟩
  · unfold lptStep
    dsimp only
    rw [hpop]
    dsimp only
    rw [hloads, hsched]
  · rw [hloads]
    exact (hrmperm.append_right _).trans (heapOf_remove_push hlds (pyMinD lds + t.2))

theorem lptLoop_spec : ∀ (ts : List (Nat × Int)) (sch : List (List (Nat × Int)))
    (lds : List Int) (heap : List (Int × Nat)),
    lds ≠ [] → List.Perm heap (heapOf lds) →
    ∃ fin : LptState, lptLoop ⟨sch, lds, heap⟩ ts = .ok fin ∧
      (fin.schedule, fin.machine_loads) = List.foldl specAssign (sch, lds) ts := by
  intro ts
  induction ts with
  | nil =>
    intro sch lds heap hlds hperm
    exact ⟨⟨sch, lds, heap⟩, rfl, rfl⟩
  | cons t ts ih =>
    intro sch lds heap hlds hperm
    obtain ⟨heap2, hstep, hperm2⟩ := lptStep_spec t hlds hperm
    have hlen : (specAssign (sch, lds) t).2.length = lds.length := by
      simp only [specAssign]
      rw [List.length_set]
    have hne2 : (specAssign (sch, lds) t).2 ≠ [] := by
      rw [← List.length_pos] at hlds ⊢
      omega
    obtain ⟨fin, hloop, hfold⟩ := ih (specAssign (sch, lds) t).1 (specAssign (sch, lds) t).2
      heap2 hne2 hperm2
    refine ⟨fin, ?_, ?_⟩
    · have hunfold : lptLoop ⟨sch, lds, heap⟩ (t :: ts) =
          match lptStep ⟨sch, lds, heap⟩ t with
          | none => .error "IndexError: index out of range"
          | some st1 => lptLoop st1 ts := rfl
      rw [hunfold, hstep]
      exact hloop
    · rw [hfold, List.foldl_cons]

/-! ### Facts about the spec-side assignment fold -/

theorem specFold_len : ∀ (ts : List (Nat × Int)) (st : List (List (Nat × Int)) × List Int),
    (List.foldl specAssign st ts).2.length = st.2.length ∧
    (List.foldl specAssign st ts).1.length = st.1.length := by
  intro ts
  induction ts with
  | nil => intro st; exact ⟨rfl, rfl⟩
  | cons t ts ih =>
    intro st
    rw [List.foldl_cons]
    obtain ⟨h1, h2⟩ := ih (specAssign st t)
    constructor
    · rw [h1]; simp only [specAssign]; rw [List.length_set]
    · rw [h2]; simp only [specAssign]; rw [List.length_set]

theorem specFold_sum : ∀ (ts : List (Nat × Int)) (st : List (List (Nat × Int)) × List Int),
    st.2 ≠ [] →
    (List.foldl specAssign st ts).2.sum = st.2.sum + (ts.map Prod.snd).sum := by
  intro ts
  induction ts with
  | nil => intro st _; simp
  | cons t ts ih =>
    intro st hne
    rw [List.foldl_cons]
    have hjlt := (pyIndexMin_spec hne).1
    have hstep : (specAssign st t).2.sum = st.2.sum + t.2 := by
      simp only [specAssign]
      rw [sum_set st.2 _ hjlt]
      ring
    have hne2 : (specAssign st t).2 ≠ [] := by
      rw [← List.length_pos] at hne ⊢
      simp only [specAssign]
      rw [List.length_set]
      omega
    rw [ih (specAssign st t) hne2, hstep]
    simp only [List.map_cons, List.sum_cons]
    ring

theorem specFold_mem (P : Nat × Int → Prop) :
    ∀ (ts : List (Nat × Int)) (st : List (List (Nat × Int)) × List Int),
    (∀ l ∈ st.1, ∀ p ∈ l, P p) → (∀ t ∈ ts, P t) →
    ∀ l ∈ (List.foldl specAssign st ts).1, ∀ p ∈ l, P p := by
  intro ts
  induction ts with
  | nil => intro st h0 _; exact h0
  | cons t ts ih =>
    intro st h0 hts
    rw [List.foldl_cons]
    refine ih (specAssign st t) ?_ (fun u hu => hts u (List.mem_cons_of_mem _ hu))
    intro l hl p hp
    have hl2 := List.mem_or_eq_of_mem_set hl
    rcases hl2 with hl2 | hl2
    · exact h0 l hl2 p hp
    · rw [hl2] at hp
      rcases List.mem_append.mp hp with hp | hp
      · by_cases hj : pyIndex (pyMinD st.2) st.2 < st.1.length
        · exact h0 _ (getD_mem [] hj) p hp
        · rw [List.getD_eq_default _ _ (by omega)] at hp
          exact absurd hp (List.not_mem_nil p)
      · rw [List.mem_singleton.mp hp]
        exact hts t (List.mem_cons_self t ts)

/-! ### The master description of `lpt_schedule` -/

theorem getD_replicate_zero (n i : Nat) : (List.replicate n (0 : Int)).getD i 0 = 0 := by
  by_cases h : i < n
  · have hlen : i < (List.replicate n (0 : Int)).length := by simpa using h
    rw [List.getD_eq_getElem _ _ hlen]
    simp
  · rw [List.getD_eq_default _ _ (by simp; omega)]

theorem heapOf_replicate (n : Nat) :
    heapOf (List.replicate n (0 : Int)) = (List.range n).map (fun i => ((0 : Int), i)) := by
  unfold heapOf
  rw [List.length_replicate]
  apply List.map_congr_left
  intro i _
  rw [getD_replicate_zero]

theorem lptScheduleE_eq (s : Sched) (fin : LptState) (mk : Int)
    (hloop : lptLoop ⟨List.replicate s.num_machines.toNat [],
        List.replicate s.num_machines.toNat 0,
        (List.range s.num_machines.toNat).map (fun i => ((0 : Int), i))⟩
        (List.insertionSort lptOrder s.tasks.enum) = .ok fin)
    (hmk : pyMax fin.machine_loads = some mk) :
    lptScheduleE s =
      .ok { s with
            schedule := fin.schedule
            machine_loads := fin.machine_loads
            makespan := mk } := by
  simp only [lptScheduleE]
  rw [hloop]
  dsimp only
  rw [hmk]

theorem lpt_ok (tasks : List Int) (m : Int) (hm : 1 ≤ m) :
    ∃ st : Sched, lptScheduleE (initScheduler tasks m) = .ok st ∧
      st.tasks = tasks ∧ st.num_machines = m ∧
      (st.schedule, st.machine_loads) =
        List.foldl specAssign (List.replicate m.toNat [], List.replicate m.toNat 0)
          (List.insertionSort lptOrder tasks.enum) ∧
      pyMax st.machine_loads = some st.makespan ∧
      st.machine_loads.length = m.toNat ∧ st.schedule.length = m.toNat ∧
      st.machine_loads.sum = tasks.sum ∧
      (∀ l ∈ st.schedule, ∀ p ∈ l, p ∈ tasks.enum) ∧
      ((∀ d ∈ tasks, 0 ≤ d) → LSInv st) := by
  have hn : 0 < m.toNat := by omega
  have hlds0 : (List.replicate m.toNat (0 : Int)) ≠ [] := by
    intro h
    have := congrArg List.length h
    simp at this
    omega
  obtain ⟨fin, hloop, hfold⟩ := lptLoop_spec (List.insertionSort lptOrder tasks.enum)
    (List.replicate m.toNat []) (List.replicate m.toNat 0)
    ((List.range m.toNat).map (fun i => ((0 : Int), i))) hlds0
    (by rw [heapOf_replicate])
  have hfin_sched : fin.schedule =
      (List.foldl specAssign (List.replicate m.toNat [], List.replicate m.toNat 0)
        (List.insertionSort lptOrder tasks.enum)).1 := congrArg Prod.fst hfold
  have hfin_loads : fin.machine_loads =
      (List.foldl specAssign (List.replicate m.toNat [], List.replicate m.toNat 0)
        (List.insertionSort lptOrder tasks.enum)).2 := congrArg Prod.snd hfold
  obtain ⟨hlen2, hlen1⟩ := specFold_len (List.insertionSort lptOrder tasks.enum)
    (List.replicate m.toNat [], List.replicate m.toNat 0)
  have hlenloads : fin.machine_loads.length = m.toNat := by
    rw [hfin_loads, hlen2]
    simp
  have hlensched : fin.schedule.length = m.toNat := by
    rw [hfin_sched, hlen1]
    simp
  have hfinne : fin.machine_loads ≠ [] := by
    intro h
    rw [h] at hlenloads
    simp at hlenloads
    omega
  obtain ⟨mk, hmk⟩ := pyMax_isSome hfinne
  have hsortperm : List.Perm (List.insertionSort lptOrder tasks.enum) tasks.enum :=
    List.perm_insertionSort lptOrder tasks.enum
  have hsum : fin.machine_loads.sum = tasks.sum := by
    rw [hfin_loads, specFold_sum _ _ hlds0]
    have h2 : ((List.insertionSort lptOrder tasks.enum).map Prod.snd).sum =
        (tasks.enum.map Prod.snd).sum := (hsortperm.map Prod.snd).sum_eq
    rw [h2, List.enum_map_snd]
    simp
  have hmem : ∀ l ∈ fin.schedule, ∀ p ∈ l, p ∈ tasks.enum := by
    rw [hfin_sched]
    refine specFold_mem (fun p => p ∈ tasks.enum) _ _ ?_ ?_
    · intro l hl p hp
      rw [List.eq_of_mem_replicate hl] at hp
      exact absurd hp (List.not_mem_nil p)
    · intro t ht
      exact hsortperm.mem_iff.mp ht
  refine ⟨{ tasks := tasks, num_machines := m, schedule := fin.schedule,
            machine_loads := fin.machine_loads, makespan := mk },
    ?_, rfl, rfl, hfold, hmk, hlenloads, hlensched, hsum, hmem, ?_⟩
  · exact lptScheduleE_eq (initScheduler tasks m) fin mk hloop hmk
  · intro hpos
    refine ⟨hmk, hlenloads, hlensched, hm, ?_⟩
    intro l hl p hp
    have hpe := hmem l hl p hp
    have : p.2 ∈ tasks := by
      rw [← List.enum_map_snd tasks]
      exact List.mem_map_of_mem Prod.snd hpe
    exact hpos p.2 this

/-! ### One iteration of the local-search loop -/

theorem lsStep_commit_inv {s s1 : Sched} (h : lsStep s = .commit s1) :
    ∃ mx om, pyMax s.machine_loads = some mx ∧ bottleneckSched s ≠ [] ∧
      pyMax ((otherIdxs s).map (fun i => s.machine_loads.getD i 0)) = some om ∧
      newMakespanOf s om < s.makespan ∧ s1 = commitState s (newMakespanOf s om) := by
  unfold lsStep at h
  split at h
  · simp at h
  next mx hmx =>
    split at h
    · simp at h
    next hbs =>
      split at h
      · simp at h
      next om hom =>
        split at h
        next hlt =>
          cases h
          exact ⟨mx, om, hmx, hbs, hom, hlt, rfl⟩
        next hlt => simp at h

theorem lsStep_eq_stop_of_empty_bottleneck {s : Sched} (hne : s.machine_loads ≠ [])
    (hbs : bottleneckSched s = []) : lsStep s = .stop := by
  obtain ⟨mx, hmx⟩ := pyMax_isSome hne
  unfold lsStep
  rw [hmx]
  dsimp only
  rw [if_pos hbs]

theorem lsStep_eq_error_of_others_empty {s : Sched} (hne : s.machine_loads ≠ [])
    (hbs : bottleneckSched s ≠ []) (hoth : otherIdxs s = []) : lsStep s = .error := by
  obtain ⟨mx, hmx⟩ := pyMax_isSome hne
  unfold lsStep
  rw [hmx]
  dsimp only
  rw [if_neg hbs, hoth]
  rfl

theorem lsStep_eq_commit_of_lt {s : Sched} (hne : s.machine_loads ≠ [])
    (hbs : bottleneckSched s ≠ []) {om : Int}
    (hom : pyMax ((otherIdxs s).map (fun i => s.machine_loads.getD i 0)) = some om)
    (hlt : newMakespanOf s om < s.makespan) :
    lsStep s = .commit (commitState s (newMakespanOf s om)) := by
  obtain ⟨mx, hmx⟩ := pyMax_isSome hne
  unfold lsStep
  rw [hmx]
  dsimp only
  rw [if_neg hbs, hom]
  dsimp only
  rw [if_pos hlt]

theorem lsStep_eq_stop_of_not_lt {s : Sched} (hne : s.machine_loads ≠ [])
    (hbs : bottleneckSched s ≠ []) {om : Int}
    (hom : pyMax ((otherIdxs s).map (fun i => s.machine_loads.getD i 0)) = some om)
    (hnlt : ¬ newMakespanOf s om < s.makespan) : lsStep s = .stop := by
  obtain ⟨mx, hmx⟩ := pyMax_isSome hne
  unfold lsStep
  rw [hmx]
  dsimp only
  rw [if_neg hbs, hom]
  dsimp only
  rw [if_neg hnlt]

/-! ### Characterisations of the selections made by one iteration -/

theorem bottleneckIdx_spec {s : Sched} (hne : s.machine_loads ≠ []) :
    isLeastIdxOfMax s.machine_loads (bottleneckIdx s) ∧
    s.machine_loads.getD (bottleneckIdx s) 0 = pyMaxD s.machine_loads := by
  obtain ⟨mx, hmx⟩ := pyMax_isSome hne
  have hD : pyMaxD s.machine_loads = mx := by simp [pyMaxD, hmx]
  obtain ⟨hmem, hub⟩ := pyMax_eq_some_iff.mp hmx
  unfold bottleneckIdx
  rw [hD]
  obtain ⟨h1, h2, h3⟩ := pyIndex_spec hmem
  refine ⟨⟨h1, ?_, ?_⟩, h2⟩
  · intro k hk
    rw [h2]
    exact hub _ (getD_mem 0 hk)
  · intro k hk
    rw [h2]
    have hkub := hub _ (getD_mem 0 (lt_trans hk h1))
    have hkne := h3 k hk
    omega

theorem minIdx_spec {s : Sched} (hne : s.machine_loads ≠ []) :
    isLeastIdxOfMin s.machine_loads (minIdx s) ∧
    s.machine_loads.getD (minIdx s) 0 = pyMinD s.machine_loads := by
  obtain ⟨h1, h2, h3, h4⟩ := pyIndexMin_spec hne
  unfold minIdx
  refine ⟨⟨h1, ?_, ?_⟩, h2⟩
  · intro k hk
    rw [h2]
    exact h4 _ (getD_mem 0 hk)
  · intro k hk
    rw [h2]
    have hub := h4 _ (getD_mem 0 (lt_trans hk h1))
    have hne2 := h3 k hk
    omega

theorem largestTaskIdx_spec {s : Sched} (hbs : bottleneckSched s ≠ []) :
    isSpecCandidate (bottleneckSched s) (largestTaskIdx s) := by
  have hn : 0 < (bottleneckSched s).length := List.length_pos.mpr hbs
  obtain ⟨h1, h2, h3⟩ := pyArgmax_range_spec
    (fun i => ((bottleneckSched s).getD i (0, 0)).2) (bottleneckSched s).length hn
  exact ⟨h1, h2, h3⟩

theorem mem_otherIdxs {s : Sched} {i : Nat} :
    i ∈ otherIdxs s ↔ i < s.num_machines.toNat ∧ i ≠ bottleneckIdx s ∧ i ≠ minIdx s := by
  unfold otherIdxs
  simp [List.mem_filter, List.mem_range]

theorem otherIdxs_eq_nil_iff {s : Sched} :
    otherIdxs s = [] ↔
      ∀ i, i < s.num_machines.toNat → i = bottleneckIdx s ∨ i = minIdx s := by
  constructor
  · intro h i hi
    by_contra hcon
    push_neg at hcon
    have hmem : i ∈ otherIdxs s := mem_otherIdxs.mpr ⟨hi, hcon.1, hcon.2⟩
    rw [h] at hmem
    exact absurd hmem (List.not_mem_nil i)
  · intro h
    by_contra hcon
    obtain ⟨i, hi⟩ := List.exists_mem_of_ne_nil _ hcon
    obtain ⟨h1, h2, h3⟩ := mem_otherIdxs.mp hi
    rcases h i h1 with he | he
    · exact h2 he
    · exact h3 he

theorem isHypMakespan_newMakespanOf {s : Sched} {om : Int}
    (hom : pyMax ((otherIdxs s).map (fun i => s.machine_loads.getD i 0)) = some om) :
    isHypMakespan s (newMakespanOf s om) := by
  obtain ⟨hommem, homub⟩ := pyMax_eq_some_iff.mp hom
  refine ⟨?_, ?_, ?_, ?_⟩
  · intro i hi hib hit
    have h1 : s.machine_loads.getD i 0 ≤ om :=
      homub _ (List.mem_map_of_mem _ (mem_otherIdxs.mpr ⟨hi, hib, hit⟩))
    have h2 : om ≤ newMakespanOf s om := le_max_of_le_left (le_max_left om (newMaxLoad s))
    exact le_trans h1 h2
  · exact le_max_of_le_left (le_max_right om (newMaxLoad s))
  · exact le_max_right _ _
  · unfold newMakespanOf
    rcases max_choice (max om (newMaxLoad s)) (newMinLoad s) with hc | hc
    · rw [hc]
      rcases max_choice om (newMaxLoad s) with hc2 | hc2
      · rw [hc2]
        obtain ⟨i, hio, hieq⟩ := List.mem_map.mp hommem
        obtain ⟨hi1, hi2, hi3⟩ := mem_otherIdxs.mp hio
        exact Or.inr (Or.inr ⟨i, hi1, hi2, hi3, hieq⟩)
      · rw [hc2]
        exact Or.inl rfl
    · rw [hc]
      exact Or.inr (Or.inl rfl)

/-! ### Effect of a committed move on loads -/

theorem sum_after_move {lds : List Int} {b t : Nat} (hbt : b ≠ t)
    (hb : b < lds.length) (ht : t < lds.length) (d : Int) :
    ((lds.set b (lds.getD b 0 - d)).set t (lds.getD t 0 + d)).sum = lds.sum := by
  have h1 : ((lds.set b (lds.getD b 0 - d)).set t (lds.getD t 0 + d)).sum =
      (lds.set b (lds.getD b 0 - d)).sum - (lds.set b (lds.getD b 0 - d)).getD t 0 +
        (lds.getD t 0 + d) :=
    sum_set _ t (by rw [List.length_set]; exact ht) _
  have h2 : (lds.set b (lds.getD b 0 - d)).getD t 0 = lds.getD t 0 :=
    getD_set_ne lds _ 0 hbt
  have h3 : (lds.set b (lds.getD b 0 - d)).sum = lds.sum - lds.getD b 0 + (lds.getD b 0 - d) :=
    sum_set lds b hb _
  rw [h1, h2, h3]
  ring

theorem pyMax_after_move {lds : List Int} {b t : Nat} (hbt : b ≠ t)
    (hb : b < lds.length) (ht : t < lds.length) {om vb vt : Int}
    (hub : ∀ i, i < lds.length → i ≠ b → i ≠ t → lds.getD i 0 ≤ om)
    (hmem : ∃ i, i < lds.length ∧ i ≠ b ∧ i ≠ t ∧ lds.getD i 0 = om) :
    pyMax ((lds.set b vb).set t vt) = some (max (max om vb) vt) := by
  have hlen : ((lds.set b vb).set t vt).length = lds.length := by
    rw [List.length_set, List.length_set]
  have hgt : ((lds.set b vb).set t vt).getD t 0 = vt :=
    getD_set_self _ t vt 0 (by rw [List.length_set]; exact ht)
  have hgb : ((lds.set b vb).set t vt).getD b 0 = vb := by
    rw [getD_set_ne _ _ 0 (Ne.symm hbt)]
    exact getD_set_self lds b vb 0 hb
  have hgo : ∀ i, i ≠ b → i ≠ t → ((lds.set b vb).set t vt).getD i 0 = lds.getD i 0 := by
    intro i hib hit
    rw [getD_set_ne _ _ 0 (fun he => hit he.symm), getD_set_ne lds _ 0 (fun he => hib he.symm)]
  rw [pyMax_eq_some_iff]
  constructor
  · rcases max_choice (max om vb) vt with hc | hc
    · rw [hc]
      rcases max_choice om vb with hc2 | hc2
      · rw [hc2]
        obtain ⟨i, hi1, hi2, hi3, hi4⟩ := hmem
        have hval : ((lds.set b vb).set t vt).getD i 0 = om := by rw [hgo i hi2 hi3, hi4]
        rw [← hval]
        refine getD_mem 0 ?_
        rw [hlen]
        exact hi1
      · rw [hc2]
        have hmm := getD_mem 0 (show b < ((lds.set b vb).set t vt).length from by
          rw [hlen]; exact hb)
        rw [hgb] at hmm
        exact hmm
    · rw [hc]
      have hmm := getD_mem 0 (show t < ((lds.set b vb).set t vt).length from by
        rw [hlen]; exact ht)
      rw [hgt] at hmm
      exact hmm
  · intro x hx
    obtain ⟨i, hilt, hieq⟩ := List.mem_iff_getElem.mp hx
    rw [← List.getD_eq_getElem _ 0 hilt] at hieq
    have hilds : i < lds.length := by rw [hlen] at hilt; exact hilt
    by_cases hit : i = t
    · subst hit
      rw [hgt] at hieq
      rw [← hieq]
      exact le_max_right _ _
    · by_cases hib : i = b
      · subst hib
        rw [hgb] at hieq
        rw [← hieq]
        exact le_max_of_le_left (le_max_right om vb)
      · rw [hgo i hib hit] at hieq
        rw [← hieq]
        exact le_trans (hub i hilds hib hit) (le_max_of_le_left (le_max_left om vb))

/-! ### A committed move preserves the invariant, preserves the total load,
and strictly decreases the stored makespan -/

theorem lsStep_commit_props {s s1 : Sched} (hinv : LSInv s) (h : lsStep s = .commit s1) :
    LSInv s1 ∧ s1.machine_loads.sum = s.machine_loads.sum ∧ s1.makespan < s.makespan ∧
      s1.tasks = s.tasks ∧ s1.num_machines = s.num_machines := by
  obtain ⟨hmxinv, hlenL, hlenS, hm1, hdur⟩ := hinv
  obtain ⟨mx, om, hmx, hbs, hom, hlt, rfl⟩ := lsStep_commit_inv h
  have hne : s.machine_loads ≠ [] := by
    intro hnil
    rw [hnil] at hmx
    simp [pyMax] at hmx
  obtain ⟨⟨hblt, hbub, hbfirst⟩, hbval⟩ := bottleneckIdx_spec hne
  obtain ⟨⟨htlt, htlb, htfirst⟩, htval⟩ := minIdx_spec hne
  have hmxD : pyMaxD s.machine_loads = mx := by simp [pyMaxD, hmx]
  have hmkeq : mx = s.makespan := by
    rw [hmx] at hmxinv
    exact Option.some.inj hmxinv
  have hcand := largestTaskIdx_spec hbs
  have hmemB : bottleneckSched s ∈ s.schedule := by
    unfold bottleneckSched
    refine getD_mem [] ?_
    rw [hlenS, ← hlenL]
    exact hblt
  have htaskmem : taskToMove s ∈ bottleneckSched s := by
    unfold taskToMove
    exact getD_mem (0, 0) hcand.1
  have hd0 : 0 ≤ (taskToMove s).2 := hdur _ hmemB _ htaskmem
  have hbt : bottleneckIdx s ≠ minIdx s := by
    intro heq
    have h1 : newMinLoad s ≤ newMakespanOf s om := le_max_right _ _
    have h2 : newMinLoad s = s.machine_loads.getD (minIdx s) 0 + (taskToMove s).2 := rfl
    have h5 : pyMaxD s.machine_loads = pyMinD s.machine_loads := by
      rw [← hbval, heq, htval]
    omega
  have hloads_eq : (commitState s (newMakespanOf s om)).machine_loads =
      (s.machine_loads.set (bottleneckIdx s) (newMaxLoad s)).set (minIdx s) (newMinLoad s) :=
    rfl
  have hsched_eq : (commitState s (newMakespanOf s om)).schedule =
      (s.schedule.set (bottleneckIdx s)
          ((bottleneckSched s).eraseIdx (largestTaskIdx s))).set (minIdx s)
        (((s.schedule.set (bottleneckIdx s)
            ((bottleneckSched s).eraseIdx (largestTaskIdx s))).getD (minIdx s) []) ++
          [taskToMove s]) := rfl
  have homub := (pyMax_eq_some_iff.mp hom).2
  have hommem := (pyMax_eq_some_iff.mp hom).1
  have hub2 : ∀ i, i < s.machine_loads.length → i ≠ bottleneckIdx s → i ≠ minIdx s →
      s.machine_loads.getD i 0 ≤ om := by
    intro i hi hib hit
    refine homub _ (List.mem_map_of_mem _ (mem_otherIdxs.mpr ⟨?_, hib, hit⟩))
    rw [← hlenL]
    exact hi
  have hmem2 : ∃ i, i < s.machine_loads.length ∧ i ≠ bottleneckIdx s ∧ i ≠ minIdx s ∧
      s.machine_loads.getD i 0 = om := by
    obtain ⟨i, hio, hieq⟩ := List.mem_map.mp hommem
    obtain ⟨hi1, hi2, hi3⟩ := mem_otherIdxs.mp hio
    exact ⟨i, by rw [hlenL]; exact hi1, hi2, hi3, hieq⟩
  have hpymax : pyMax (commitState s (newMakespanOf s om)).machine_loads =
      some (newMakespanOf s om) := by
    rw [hloads_eq]
    exact pyMax_after_move hbt hblt htlt hub2 hmem2
  have hsum : (commitState s (newMakespanOf s om)).machine_loads.sum =
      s.machine_loads.sum := by
    rw [hloads_eq]
    exact sum_after_move hbt hblt htlt (taskToMove s).2
  have hlen_loads : (commitState s (newMakespanOf s om)).machine_loads.length =
      s.num_machines.toNat := by
    rw [hloads_eq, List.length_set, List.length_set, hlenL]
  have hlen_sched : (commitState s (newMakespanOf s om)).schedule.length =
      s.num_machines.toNat := by
    rw [hsched_eq, List.length_set, List.length_set, hlenS]
  have hdur2 : ∀ l ∈ (commitState s (newMakespanOf s om)).schedule, ∀ p ∈ l, 0 ≤ p.2 := by
    rw [hsched_eq]
    intro l hl p hp
    rcases List.mem_or_eq_of_mem_set hl with hl2 | hl2
    · rcases List.mem_or_eq_of_mem_set hl2 with hl3 | hl3
      · exact hdur l hl3 p hp
      · rw [hl3] at hp
        exact hdur _ hmemB p (List.eraseIdx_subset _ _ hp)
    · rw [hl2] at hp
      rcases List.mem_append.mp hp with hp2 | hp2
      · by_cases hjlen : minIdx s <
            (s.schedule.set (bottleneckIdx s)
              ((bottleneckSched s).eraseIdx (largestTaskIdx s))).length
        · have hmemset := getD_mem [] hjlen
          rcases List.mem_or_eq_of_mem_set hmemset with hl3 | hl3
          · exact hdur _ hl3 p hp2
          · rw [hl3] at hp2
            exact hdur _ hmemB p (List.eraseIdx_subset _ _ hp2)
        · rw [List.getD_eq_default _ _ (by omega)] at hp2
          exact absurd hp2 (List.not_mem_nil p)
      · rw [List.mem_singleton.mp hp2]
        exact hd0
  refine ⟨⟨hpymax, hlen_loads, hlen_sched, ?_, hdur2⟩, hsum, hlt, rfl, rfl⟩
  exact hm1

/-! ### The loop -/

theorem lsRun_preserves (P : Sched → Prop)
    (hstep : ∀ u u1, lsStep u = .commit u1 → P u → P u1) :
    ∀ (fuel : Nat) (u : Sched) (it : Nat), P u → P (lsRun u it fuel).state := by
  intro fuel
  induction fuel with
  | zero => intro u it hP; exact hP
  | succ n ih =>
    intro u it hP
    unfold lsRun
    cases hstep_eq : lsStep u with
    | stop => exact hP
    | error => exact hP
    | commit u1 => exact ih u1 (it + 1) (hstep u u1 hstep_eq hP)

theorem lsStep_commit_makespan_lt {s s1 : Sched} (h : lsStep s = .commit s1) :
    s1.makespan < s.makespan := by
  obtain ⟨mx, om, hmx, hbs, hom, hlt, rfl⟩ := lsStep_commit_inv h
  exact hlt

theorem lsRun_makespan_le (fuel : Nat) (u : Sched) (it : Nat) :
    (lsRun u it fuel).state.makespan ≤ u.makespan :=
  lsRun_preserves (fun v => v.makespan ≤ u.makespan)
    (fun _ _ hc hle => le_trans (le_of_lt (lsStep_commit_makespan_lt hc)) hle)
    fuel u it (le_refl _)

/-! ### Further helpers for the claims -/

theorem pyIndex_cons_self (a : Int) (l : List Int) : pyIndex a (a :: l) = 0 := by
  simp [pyIndex]

theorem pyIndex_cons_ne {x a : Int} (h : ¬ x = a) (l : List Int) :
    pyIndex a (x :: l) = pyIndex a l + 1 := by
  simp [pyIndex, h]

theorem pyIndex_max_two {a b : Int} (hab : a ≠ b) :
    (pyIndex (pyMaxD [a, b]) [a, b] = 0 ∧ pyIndex (pyMinD [a, b]) [a, b] = 1) ∨
    (pyIndex (pyMaxD [a, b]) [a, b] = 1 ∧ pyIndex (pyMinD [a, b]) [a, b] = 0) := by
  have hmax : pyMaxD [a, b] = max a b := rfl
  have hmin : pyMinD [a, b] = min a b := rfl
  rcases lt_trichotomy a b with h | h | h
  · right
    rw [hmax, hmin, max_eq_right (le_of_lt h), min_eq_left (le_of_lt h)]
    constructor
    · rw [pyIndex_cons_ne (ne_of_lt h), pyIndex_cons_self]
    · rw [pyIndex_cons_self]
  · exact absurd h hab
  · left
    rw [hmax, hmin, max_eq_left (le_of_lt h), min_eq_right (le_of_lt h)]
    constructor
    · rw [pyIndex_cons_self]
    · rw [pyIndex_cons_ne (ne_of_gt h), pyIndex_cons_self]

theorem commit_b_ne_t {s : Sched} (hinv : LSInv s) (hbs : bottleneckSched s ≠ [])
    {om : Int} (hlt : newMakespanOf s om < s.makespan) :
    bottleneckIdx s ≠ minIdx s := by
  obtain ⟨hmxinv, hlenL, hlenS, hm1, hdur⟩ := hinv
  have hne : s.machine_loads ≠ [] := by
    intro hnil
    rw [hnil] at hmxinv
    simp [pyMax] at hmxinv
  obtain ⟨⟨hblt, hbub, hbfirst⟩, hbval⟩ := bottleneckIdx_spec hne
  obtain ⟨⟨htlt, htlb, htfirst⟩, htval⟩ := minIdx_spec hne
  have hcand := largestTaskIdx_spec hbs
  have hmemB : bottleneckSched s ∈ s.schedule := by
    unfold bottleneckSched
    refine getD_mem [] ?_
    rw [hlenS, ← hlenL]
    exact hblt
  have htaskmem : taskToMove s ∈ bottleneckSched s := by
    unfold taskToMove
    exact getD_mem (0, 0) hcand.1
  have hd0 : 0 ≤ (taskToMove s).2 := hdur _ hmemB _ htaskmem
  have hmkval : pyMaxD s.machine_loads = s.makespan := by
    unfold pyMaxD
    rw [hmxinv]
    rfl
  intro heq
  have h1 : newMinLoad s ≤ newMakespanOf s om := le_max_right _ _
  have h2 : newMinLoad s = s.machine_loads.getD (minIdx s) 0 + (taskToMove s).2 := rfl
  have h5 : pyMaxD s.machine_loads = pyMinD s.machine_loads := by
    rw [← hbval, heq, htval]
  omega

theorem commitState_eq_specMove {s : Sched} (hbt : bottleneckIdx s ≠ minIdx s) (nm : Int) :
    commitState s nm = specMove s nm := by
  simp only [commitState, specMove]
  rw [getD_set_ne s.schedule _ [] hbt]

theorem isLeastIdxOfMin_pyIndex {lds : List Int} (h : lds ≠ []) :
    isLeastIdxOfMin lds (pyIndex (pyMinD lds) lds) ∧
    lds.getD (pyIndex (pyMinD lds) lds) 0 = pyMinD lds := by
  obtain ⟨h1, h2, h3, h4⟩ := pyIndexMin_spec h
  refine ⟨⟨h1, ?_, ?_⟩, h2⟩
  · intro k hk
    rw [h2]
    exact h4 _ (getD_mem 0 hk)
  · intro k hk
    rw [h2]
    have hub := h4 _ (getD_mem 0 (lt_trans hk h1))
    have hne2 := h3 k hk
    omega

/-! ### The claims -/

/-- C8 counterexample: constructing a scheduler with `machine_count = 0` and
the negative task duration `-1` does not fail: `__init__` has no validation
and no failure channel, and produces a fully formed instance state (here
with zero machine slots).  This refutes the claim that construction with
`machine_count ≤ 0` or a negative duration surfaces an error. -/
theorem C8_counterexample :
    initScheduler [-1] 0 =
      { tasks := [-1], num_machines := 0, schedule := [], machine_loads := [],
        makespan := 0 } :=
  rfl

/-- C8 (amended): construction performs no validation at all: for every task
list (negative durations included) and every machine count (non-positive
included) it succeeds, storing the inputs unchanged together with
`max(machine_count, 0)` empty machine sequences, as many zero loads, and
makespan 0. -/
theorem C8_no_validation (tasks : List Int) (m : Int) :
    initScheduler tasks m =
      { tasks := tasks, num_machines := m, schedule := List.replicate m.toNat [],
        machine_loads := List.replicate m.toNat 0, makespan := 0 } ∧
    (initScheduler tasks m).schedule.length = m.toNat ∧
    (initScheduler tasks m).machine_loads.length = m.toNat ∧
    (initScheduler tasks m).machine_loads.sum = 0 ∧
    (initScheduler tasks m).makespan = 0 := by
  refine ⟨rfl, by simp [initScheduler], by simp [initScheduler], ?_, rfl⟩
  show (List.replicate m.toNat (0 : Int)).sum = 0
  simp

/-- C10: the pipeline is a pure function of (task durations, machine count,
iteration cap): two runs on equal inputs give equal results, in particular
identical schedules, loads, makespans and iteration counts.  The core uses
no randomness (the `random` module only feeds the excluded demo data
generator) and wall-clock time only for the advisory timing field, which is
not part of the schedule state. -/
theorem C10_determinism (t1 t2 : List Int) (m1 m2 : Int) (c1 c2 : Nat)
    (ht : t1 = t2) (hm : m1 = m2) (hc : c1 = c2) :
    runPipeline t1 m1 c1 = runPipeline t2 m2 c2 ∧
    ∀ r1 r2, runPipeline t1 m1 c1 = .ok r1 → runPipeline t2 m2 c2 = .ok r2 →
      r1.state.schedule = r2.state.schedule ∧
      r1.state.machine_loads = r2.state.machine_loads ∧
      r1.state.makespan = r2.state.makespan ∧ r1.iterations = r2.iterations := by
  subst ht hm hc
  refine ⟨rfl, ?_⟩
  intro r1 r2 h1 h2
  rw [h1] at h2
  cases h2
  exact ⟨rfl, rfl, rfl, rfl⟩

/-- Witness for C10 at tasks `[5, 3]`, two machines, cap 4. -/
theorem C10_determinism_witness :
    ([5, 3] : List Int) = [5, 3] ∧ (2 : Int) = 2 ∧ (4 : Nat) = 4 ∧
    (runPipeline [5, 3] 2 4 = runPipeline [5, 3] 2 4 ∧
      ∀ r1 r2, runPipeline [5, 3] 2 4 = .ok r1 → runPipeline [5, 3] 2 4 = .ok r2 →
        r1.state.schedule = r2.state.schedule ∧
        r1.state.machine_loads = r2.state.machine_loads ∧
        r1.state.makespan = r2.state.makespan ∧ r1.iterations = r2.iterations) :=
  ⟨rfl, rfl, rfl, C10_determinism [5, 3] [5, 3] 2 2 4 4 rfl rfl rfl⟩

/-- C5: for a scheduler with two machines whose loads are unequal and whose
bottleneck machine holds at least one task, `local_search_optimization` with
any positive iteration cap raises an unhandled `ValueError`: both machine
indices are excluded from the generator feeding the inner `max`, so `max`
is applied to an empty sequence.  The result is the `err` outcome carrying
the unchanged state after 0 performed iterations, not a normal return. -/
theorem C5_two_machine_value_error (s : Sched) (a b : Int) (cap : Nat)
    (hm : s.num_machines = 2) (hloads : s.machine_loads = [a, b]) (hab : a ≠ b)
    (hbs : bottleneckSched s ≠ []) (hcap : 1 ≤ cap) :
    localSearchOptimization s cap = .err s 0 := by
  have hne : s.machine_loads ≠ [] := by
    rw [hloads]
    simp
  have hb2 : bottleneckIdx s = pyIndex (pyMaxD [a, b]) [a, b] := by
    unfold bottleneckIdx
    rw [hloads]
  have ht2 : minIdx s = pyIndex (pyMinD [a, b]) [a, b] := by
    unfold minIdx
    rw [hloads]
  have hcover : ∀ i, i < s.num_machines.toNat → i = bottleneckIdx s ∨ i = minIdx s := by
    intro i hi
    rw [hm] at hi
    have hi2 : i < 2 := by simpa using hi
    rcases pyIndex_max_two hab with ⟨h1, h2⟩ | ⟨h1, h2⟩ <;> rw [hb2, ht2, h1, h2] <;> omega
  have hstep : lsStep s = .error :=
    lsStep_eq_error_of_others_empty hne hbs (otherIdxs_eq_nil_iff.mpr hcover)
  obtain ⟨c, rfl⟩ : ∃ c, cap = c + 1 := ⟨cap - 1, by omega⟩
  show lsRun s 0 (c + 1) = .err s 0
  unfold lsRun
  rw [hstep]

/-- Witness for C5: the state reached by `lpt_schedule` on tasks `[3]` with
two machines (loads `[3, 0]`), run with the default cap 100. -/
theorem C5_two_machine_value_error_witness :
    lptScheduleE (initScheduler [3] 2) = .ok twoMachineState ∧
    twoMachineState.num_machines = 2 ∧ twoMachineState.machine_loads = [3, 0] ∧
    (3 : Int) ≠ 0 ∧ bottleneckSched twoMachineState ≠ [] ∧ (1 : Nat) ≤ 100 ∧
    localSearchOptimization twoMachineState 100 = .err twoMachineState 0 :=
  ⟨rfl, rfl, rfl, by decide, by decide, by decide,
    C5_two_machine_value_error twoMachineState 3 0 100 rfl rfl (by decide) (by decide)
      (by decide)⟩

/-- C6 evidence: on the non-empty task list `[3]` with a single machine,
`lpt_schedule` does set the makespan to the total work (3), but
`local_search_optimization` with a positive cap then raises `ValueError`
(the inner `max` runs over an empty generator, every index being excluded
as both bottleneck and target) instead of returning normally with 0
iterations as the claim states. -/
theorem C6_single_machine_crash :
    lptScheduleE (initScheduler [3] 1) = .ok oneMachineState ∧
    oneMachineState.makespan = ([3] : List Int).sum ∧
    localSearchOptimization oneMachineState 100 = .err oneMachineState 0 := by
  refine ⟨rfl, by decide, by decide⟩

/-- C7 evidence: on the empty task list with three machines `lpt_schedule`
does produce three empty machine sequences and makespan 0, but
`calculate_statistics` then raises `ValueError` when computing the lower
bound, because `max(self.tasks)` is applied to the empty task list — it
does not return the well-defined statistics the claim states. -/
theorem C7_empty_stats_crash :
    lptScheduleE (initScheduler [] 3) = .ok emptyState3 ∧
    emptyState3.makespan = 0 ∧ emptyState3.schedule = [[], [], []] ∧
    calculateStatisticsE emptyState3 = .error "ValueError: max() arg is an empty sequence" := by
  refine ⟨rfl, rfl, rfl, rfl⟩

/-- C3 counterexample: on the state `lpt_schedule` reaches from tasks `[3]`
with two machines (loads `[3, 0]`, bottleneck machine 0 non-empty), the
first local-search iteration neither commits a move nor stops the loop
normally: it raises `ValueError`.  This refutes the claim that in every
iteration the move is either committed or the loop stops. -/
theorem C3_counterexample :
    lsStep twoMachineState = .error ∧
    localSearchOptimization twoMachineState 100 = .err twoMachineState 0 :=
  ⟨by decide, by decide⟩

/-- C1: conservation of work.  For every task list of non-negative durations
and machine count at least 1, `lpt_schedule` succeeds and the machine loads
sum to the total task duration; and after `local_search_optimization` with
any iteration cap the loads of the resulting instance state still sum to the
total task duration (each committed move only transfers one task's duration
between two machines; the state is unchanged when the loop stops or when the
`ValueError` is raised). -/
theorem C1_conservation (tasks : List Int) (m : Int) (cap : Nat)
    (hm : 1 ≤ m) (hpos : ∀ d ∈ tasks, 0 ≤ d) :
    ∃ st, lptScheduleE (initScheduler tasks m) = .ok st ∧
      st.machine_loads.sum = tasks.sum ∧
      st.machine_loads.length = m.toNat ∧
      (localSearchOptimization st cap).state.machine_loads.sum = tasks.sum ∧
      (localSearchOptimization st cap).state.machine_loads.length = m.toNat := by
  obtain ⟨st, hok, htasks, hnm, hfold, hmax, hlenL, hlenS, hsum, hmem, hinv⟩ :=
    lpt_ok tasks m hm
  have hinv2 := hinv hpos
  have hstep : ∀ u u1, lsStep u = .commit u1 →
      (LSInv u ∧ u.machine_loads.sum = tasks.sum ∧ u.num_machines = m) →
      (LSInv u1 ∧ u1.machine_loads.sum = tasks.sum ∧ u1.num_machines = m) := by
    intro u u1 hc hP
    obtain ⟨hI, hS, hM⟩ := hP
    obtain ⟨hI1, hsum1, _, _, hnm1⟩ := lsStep_commit_props hI hc
    exact ⟨hI1, by rw [hsum1, hS], by rw [hnm1, hM]⟩
  have hfinal := lsRun_preserves _ hstep cap st 0 ⟨hinv2, hsum, hnm⟩
  obtain ⟨hIf, hSf, hMf⟩ := hfinal
  refine ⟨st, hok, hsum, hlenL, hSf, ?_⟩
  show (lsRun st 0 cap).state.machine_loads.length = m.toNat
  rw [hIf.2.1, hMf]

/-- Witness for C1 at tasks `[3, 1]`, two machines, cap 5. -/
theorem C1_conservation_witness :
    (1 : Int) ≤ 2 ∧ (∀ d ∈ ([3, 1] : List Int), 0 ≤ d) ∧
    ∃ st, lptScheduleE (initScheduler [3, 1] 2) = .ok st ∧
      st.machine_loads.sum = ([3, 1] : List Int).sum ∧
      st.machine_loads.length = (2 : Int).toNat ∧
      (localSearchOptimization st 5).state.machine_loads.sum = ([3, 1] : List Int).sum ∧
      (localSearchOptimization st 5).state.machine_loads.length = (2 : Int).toNat :=
  ⟨by decide, by decide, C1_conservation [3, 1] 2 5 (by decide) (by decide)⟩

/-- C4: monotonic improvement.  Every committed local-search move strictly
decreases the stored makespan, and for every input with at least one machine
and every iteration cap the makespan of the state `local_search_optimization`
ends in (normally or with the propagated `ValueError`) is at most the
makespan `lpt_schedule` produced; in particular a normal return reports a
makespan at most the greedy one. -/
theorem C4_monotonic_improvement (tasks : List Int) (m : Int) (cap : Nat) (hm : 1 ≤ m) :
    (∀ u u1, lsStep u = .commit u1 → u1.makespan < u.makespan) ∧
    ∃ st, lptScheduleE (initScheduler tasks m) = .ok st ∧
      (localSearchOptimization st cap).state.makespan ≤ st.makespan ∧
      ∀ s1 iters, localSearchOptimization st cap = .ok s1 iters →
        s1.makespan ≤ st.makespan := by
  obtain ⟨st, hok, hrest⟩ := lpt_ok tasks m hm
  refine ⟨fun u u1 hc => lsStep_commit_makespan_lt hc, st, hok,
    lsRun_makespan_le cap st 0, ?_⟩
  intro s1 iters hrun
  have hle := lsRun_makespan_le cap st 0
  rw [show localSearchOptimization st cap = lsRun st 0 cap from rfl] at hrun
  rw [hrun] at hle
  exact hle

/-- Witness for C4 at tasks `[3, 1]`, two machines, cap 5. -/
theorem C4_monotonic_improvement_witness :
    (1 : Int) ≤ 2 ∧
    ((∀ u u1, lsStep u = .commit u1 → u1.makespan < u.makespan) ∧
      ∃ st, lptScheduleE (initScheduler [3, 1] 2) = .ok st ∧
        (localSearchOptimization st 5).state.makespan ≤ st.makespan ∧
        ∀ s1 iters, localSearchOptimization st 5 = .ok s1 iters →
          s1.makespan ≤ st.makespan) :=
  ⟨by decide, C4_monotonic_improvement [3, 1] 2 5 (by decide)⟩

/-- C2: the greedy LPT algorithm.  The processing order is the sorted task
list: a permutation of the enumerated input, pairwise ordered by duration
descending with ties broken by ascending original index.  The heap-driven
assignment equals the fold of the spec-side step `specAssign` over that
order, and `specAssign` places each task on the machine whose index is the
least index attaining the minimum current load.  The returned state has
exactly `m` machine sequences and `m` loads, and its makespan is the maximum
machine load (a load that every machine load is bounded by). -/
theorem C2_lpt_algorithm (tasks : List Int) (m : Int) (hm : 1 ≤ m) :
    List.Perm (List.insertionSort lptOrder tasks.enum) tasks.enum ∧
    List.Pairwise lptOrder (List.insertionSort lptOrder tasks.enum) ∧
    (∀ loads : List Int, loads ≠ [] →
      isLeastIdxOfMin loads (pyIndex (pyMinD loads) loads) ∧
      loads.getD (pyIndex (pyMinD loads) loads) 0 = pyMinD loads) ∧
    ∃ st, lptScheduleE (initScheduler tasks m) = .ok st ∧
      st.schedule.length = m.toNat ∧ st.machine_loads.length = m.toNat ∧
      (st.schedule, st.machine_loads) =
        List.foldl specAssign (List.replicate m.toNat [], List.replicate m.toNat 0)
          (List.insertionSort lptOrder tasks.enum) ∧
      st.makespan ∈ st.machine_loads ∧ ∀ x ∈ st.machine_loads, x ≤ st.makespan := by
  obtain ⟨st, hok, htasks, hnm, hfold, hmax, hlenL, hlenS, hsum, hmem, hinv⟩ :=
    lpt_ok tasks m hm
  obtain ⟨hmk_mem, hmk_ub⟩ := pyMax_eq_some_iff.mp hmax
  refine ⟨List.perm_insertionSort lptOrder tasks.enum,
    List.sorted_insertionSort lptOrder tasks.enum,
    fun loads hne => isLeastIdxOfMin_pyIndex hne,
    st, hok, hlenS, hlenL, hfold, hmk_mem, hmk_ub⟩

/-- Witness for C2 at tasks `[2, 2, 5]`, two machines. -/
theorem C2_lpt_algorithm_witness :
    (1 : Int) ≤ 2 ∧
    (List.Perm (List.insertionSort lptOrder ([2, 2, 5] : List Int).enum)
        ([2, 2, 5] : List Int).enum ∧
      List.Pairwise lptOrder (List.insertionSort lptOrder ([2, 2, 5] : List Int).enum) ∧
      (∀ loads : List Int, loads ≠ [] →
        isLeastIdxOfMin loads (pyIndex (pyMinD loads) loads) ∧
        loads.getD (pyIndex (pyMinD loads) loads) 0 = pyMinD loads) ∧
      ∃ st, lptScheduleE (initScheduler [2, 2, 5] 2) = .ok st ∧
        st.schedule.length = (2 : Int).toNat ∧ st.machine_loads.length = (2 : Int).toNat ∧
        (st.schedule, st.machine_loads) =
          List.foldl specAssign
            (List.replicate (2 : Int).toNat [], List.replicate (2 : Int).toNat 0)
            (List.insertionSort lptOrder ([2, 2, 5] : List Int).enum) ∧
        st.makespan ∈ st.machine_loads ∧ ∀ x ∈ st.machine_loads, x ≤ st.makespan) :=
  ⟨by decide, C2_lpt_algorithm [2, 2, 5] 2 (by decide)⟩

/-- C3 (amended): the local-search move policy, per iteration, on any state
satisfying the structural invariant `LSInv` (as every state between
`lpt_schedule` and the local-search iterations does).  The bottleneck is the
least index attaining the maximum load; an empty bottleneck sequence stops
the loop; the candidate is the largest-duration task at the earliest
position on the bottleneck machine; the target is the least index attaining
the minimum load; when bottleneck and target together cover all machine
indices the iteration raises `ValueError` instead of stopping; otherwise the
inner maximum `om` exists, the value `newMakespanOf s om` is exactly the
hypothetical makespan of the claim (`isHypMakespan`), and the move is
committed if and only if that value strictly improves on the stored makespan
(with the committed state being precisely the spec-side move `specMove`,
bottleneck and target being distinct machines), the loop stopping
otherwise. -/
theorem C3_move_policy (s : Sched) (hinv : LSInv s) :
    isLeastIdxOfMax s.machine_loads (bottleneckIdx s) ∧
    (bottleneckSched s = [] → lsStep s = .stop) ∧
    (bottleneckSched s ≠ [] →
      isSpecCandidate (bottleneckSched s) (largestTaskIdx s) ∧
      isLeastIdxOfMin s.machine_loads (minIdx s) ∧
      ((∀ i, i < s.num_machines.toNat → i = bottleneckIdx s ∨ i = minIdx s) →
        lsStep s = .error) ∧
      ∀ om, pyMax ((otherIdxs s).map (fun i => s.machine_loads.getD i 0)) = some om →
        isHypMakespan s (newMakespanOf s om) ∧
        (newMakespanOf s om < s.makespan →
          lsStep s = .commit (commitState s (newMakespanOf s om)) ∧
          bottleneckIdx s ≠ minIdx s ∧
          commitState s (newMakespanOf s om) = specMove s (newMakespanOf s om)) ∧
        (¬ newMakespanOf s om < s.makespan → lsStep s = .stop)) := by
  have hne : s.machine_loads ≠ [] := by
    intro hnil
    have h1 := hinv.2.1
    have h2 := hinv.2.2.2.1
    rw [hnil] at h1
    simp at h1
    omega
  refine ⟨(bottleneckIdx_spec hne).1, lsStep_eq_stop_of_empty_bottleneck hne, ?_⟩
  intro hbs
  refine ⟨largestTaskIdx_spec hbs, (minIdx_spec hne).1, ?_, ?_⟩
  · intro hcov
    exact lsStep_eq_error_of_others_empty hne hbs (otherIdxs_eq_nil_iff.mpr hcov)
  · intro om hom
    refine ⟨isHypMakespan_newMakespanOf hom, ?_, lsStep_eq_stop_of_not_lt hne hbs hom⟩
    intro hlt
    have hbt := commit_b_ne_t hinv hbs hlt
    exact ⟨lsStep_eq_commit_of_lt hne hbs hom hlt, hbt,
      commitState_eq_specMove hbt (newMakespanOf s om)⟩

/-- Witness for C3 at the state reached by `lpt_schedule` from tasks `[3]`
with two machines. -/
theorem C3_move_policy_witness :
    LSInv twoMachineState ∧
    (isLeastIdxOfMax twoMachineState.machine_loads (bottleneckIdx twoMachineState) ∧
      (bottleneckSched twoMachineState = [] → lsStep twoMachineState = .stop) ∧
      (bottleneckSched twoMachineState ≠ [] →
        isSpecCandidate (bottleneckSched twoMachineState) (largestTaskIdx twoMachineState) ∧
        isLeastIdxOfMin twoMachineState.machine_loads (minIdx twoMachineState) ∧
        ((∀ i, i < twoMachineState.num_machines.toNat →
            i = bottleneckIdx twoMachineState ∨ i = minIdx twoMachineState) →
          lsStep twoMachineState = .error) ∧
        ∀ om, pyMax ((otherIdxs twoMachineState).map
            (fun i => twoMachineState.machine_loads.getD i 0)) = some om →
          isHypMakespan twoMachineState (newMakespanOf twoMachineState om) ∧
          (newMakespanOf twoMachineState om < twoMachineState.makespan →
            lsStep twoMachineState =
              .commit (commitState twoMachineState (newMakespanOf twoMachineState om)) ∧
            bottleneckIdx twoMachineState ≠ minIdx twoMachineState ∧
            commitState twoMachineState (newMakespanOf twoMachineState om) =
              specMove twoMachineState (newMakespanOf twoMachineState om)) ∧
          (¬ newMakespanOf twoMachineState om < twoMachineState.makespan →
            lsStep twoMachineState = .stop))) :=
  ⟨by decide, C3_move_policy twoMachineState (by decide)⟩

/-! ### The statistics computation -/

theorem sum_map_sub_sq (l : List Int) (c : ℚ) :
    (l.map (fun x : Int => ((x : ℚ) - c) ^ 2)).sum =
      (l.map (fun x : Int => (x : ℚ) ^ 2)).sum - 2 * c *
        (l.map (fun x : Int => (x : ℚ))).sum +
        (l.length : ℚ) * c ^ 2 := by
  induction l with
  | nil => simp
  | cons x xs ih =>
    simp only [List.map_cons, List.sum_cons, List.length_cons]
    rw [ih]
    push_cast
    ring

theorem sampleVariance_eq_spec {l : List Int} (hl : 2 ≤ l.length) :
    sampleVariance l = specSampleVariance l := by
  have hc : (2 : ℚ) ≤ (l.length : ℚ) := by exact_mod_cast hl
  have hn0 : (l.length : ℚ) ≠ 0 := by linarith
  have hn1 : (l.length : ℚ) - 1 ≠ 0 := by linarith
  simp only [sampleVariance, specSampleVariance]
  rw [sum_map_sub_sq]
  field_simp
  ring

theorem sampleVariance_nonneg {l : List Int} (hl : 2 ≤ l.length) :
    0 ≤ sampleVariance l := by
  have hc : (2 : ℚ) ≤ (l.length : ℚ) := by exact_mod_cast hl
  simp only [sampleVariance]
  apply div_nonneg
  · apply List.sum_nonneg
    intro x hx
    obtain ⟨y, hy, rfl⟩ := List.mem_map.mp hx
    positivity
  · linarith

theorem calculateStatisticsE_eq {s : Sched} {mt mn mxl : Int}
    (hm0 : ¬ s.num_machines = 0)
    (hmt : pyMax s.tasks = some mt)
    (hmn : pyMin s.machine_loads = some mn)
    (hmxl : pyMax s.machine_loads = some mxl) :
    calculateStatisticsE s = .ok
      { total_tasks := s.tasks.length
        num_machines := s.num_machines
        total_work := s.tasks.sum
        makespan := s.makespan
        average_load := (s.tasks.sum : ℚ) / (s.num_machines : ℚ)
        load_variance :=
          if 1 < s.machine_loads.length then sampleVariance s.machine_loads else 0
        min_load := mn
        max_load := mxl
        utilizations := s.machine_loads.map
          (fun load : Int => if 0 < s.makespan then (load : ℚ) / (s.makespan : ℚ) * 100 else 0)
        average_utilization := (s.machine_loads.map
            (fun load : Int =>
              if 0 < s.makespan then (load : ℚ) / (s.makespan : ℚ) * 100 else 0)).sum /
          ((s.machine_loads.map
            (fun load : Int =>
              if 0 < s.makespan then (load : ℚ) / (s.makespan : ℚ) * 100 else 0)).length : ℚ)
        efficiency := if 0 < s.makespan then
            (s.tasks.sum : ℚ) / (s.num_machines : ℚ) / (s.makespan : ℚ) * 100 else 0
        lower_bound := max ((s.tasks.sum : ℚ) / (s.num_machines : ℚ)) (mt : ℚ)
        approximation_ratio :=
          if 0 < max ((s.tasks.sum : ℚ) / (s.num_machines : ℚ)) (mt : ℚ)
          then (s.makespan : ℚ) / max ((s.tasks.sum : ℚ) / (s.num_machines : ℚ)) (mt : ℚ)
          else 1 } := by
  simp only [calculateStatisticsE]
  rw [if_neg hm0, hmt]
  dsimp only
  rw [hmn, hmxl]

/-- C9: the statistics formulas.  For every scheduler state with a non-empty
task list, at least one machine, and one load entry per machine (as after an
assignment run), `calculate_statistics` returns normally and its entries
satisfy the claimed formulas: `average_load` is the total work over the
machine count; `load_variance` is the sample variance of the loads
(expressed by the closed form `specSampleVariance`) when the machine count
is at least 2 and 0 otherwise; `load_std_dev` squares back to the variance
and is non-negative (0 when the machine count is below 2); each utilization
is load over makespan times 100 when the makespan is positive and 0
otherwise; efficiency is average load over makespan times 100 under the same
guard; the lower bound is the maximum of the average load and the largest
single task duration; and the approximation ratio is makespan over lower
bound when the lower bound is positive and 1 otherwise. -/
theorem C9_statistics_formulas (s : Sched)
    (htasks : s.tasks ≠ []) (hm : 1 ≤ s.num_machines)
    (hlen : s.machine_loads.length = s.num_machines.toNat) :
    ∃ stats, calculateStatisticsE s = .ok stats ∧
      stats.average_load = (s.tasks.sum : ℚ) / (s.num_machines : ℚ) ∧
      (2 ≤ s.num_machines → stats.load_variance = specSampleVariance s.machine_loads) ∧
      (s.num_machines < 2 → stats.load_variance = 0) ∧
      (2 ≤ s.num_machines →
        loadStdDev s ^ 2 = ((stats.load_variance : ℚ) : ℝ) ∧ 0 ≤ loadStdDev s) ∧
      (s.num_machines < 2 → loadStdDev s = 0) ∧
      stats.utilizations.length = s.machine_loads.length ∧
      (∀ i, i < s.machine_loads.length → stats.utilizations.getD i 0 =
        (if 0 < s.makespan then (s.machine_loads.getD i 0 : ℚ) / (s.makespan : ℚ) * 100
         else 0)) ∧
      stats.efficiency =
        (if 0 < s.makespan then stats.average_load / (s.makespan : ℚ) * 100 else 0) ∧
      (∃ dmax, dmax ∈ s.tasks ∧ (∀ d ∈ s.tasks, d ≤ dmax) ∧
        stats.lower_bound = max stats.average_load (dmax : ℚ)) ∧
      stats.approximation_ratio =
        (if 0 < stats.lower_bound then (s.makespan : ℚ) / stats.lower_bound else 1) := by
  have hm0 : ¬ s.num_machines = 0 := by omega
  obtain ⟨mt, hmt⟩ := pyMax_isSome htasks
  have hlne : s.machine_loads ≠ [] := by
    intro h
    rw [h] at hlen
    simp at hlen
    omega
  obtain ⟨mn, hmn⟩ := pyMin_isSome hlne
  obtain ⟨mxl, hmxl⟩ := pyMax_isSome hlne
  obtain ⟨hmt_mem, hmt_ub⟩ := pyMax_eq_some_iff.mp hmt
  refine ⟨_, calculateStatisticsE_eq hm0 hmt hmn hmxl, rfl, ?_, ?_, ?_, ?_, by simp, ?_,
    rfl, ⟨mt, hmt_mem, hmt_ub, rfl⟩, rfl⟩
  · intro h2
    have hl2 : 1 < s.machine_loads.length := by rw [hlen]; omega
    show (if 1 < s.machine_loads.length then sampleVariance s.machine_loads else 0) =
      specSampleVariance s.machine_loads
    rw [if_pos hl2]
    exact sampleVariance_eq_spec (by omega)
  · intro h2
    have hl2 : ¬ 1 < s.machine_loads.length := by rw [hlen]; omega
    show (if 1 < s.machine_loads.length then sampleVariance s.machine_loads else 0) = 0
    rw [if_neg hl2]
  · intro h2
    have hl2 : 1 < s.machine_loads.length := by rw [hlen]; omega
    have hvpos : (0 : ℚ) ≤ sampleVariance s.machine_loads :=
      sampleVariance_nonneg (by omega)
    constructor
    · show loadStdDev s ^ 2 =
        (((if 1 < s.machine_loads.length then sampleVariance s.machine_loads else 0 : ℚ)) : ℝ)
      unfold loadStdDev
      rw [if_pos hl2, if_pos hl2]
      exact Real.sq_sqrt (by exact_mod_cast hvpos)
    · unfold loadStdDev
      rw [if_pos hl2]
      exact Real.sqrt_nonneg _
  · intro h2
    have hl2 : ¬ 1 < s.machine_loads.length := by rw [hlen]; omega
    unfold loadStdDev
    rw [if_neg hl2]
  · intro i hi
    show (s.machine_loads.map
        (fun load : Int => if 0 < s.makespan then (load : ℚ) / (s.makespan : ℚ) * 100
          else 0)).getD i 0 = _
    rw [List.getD_eq_getElem _ _ (by simpa using hi)]
    rw [List.getElem_map]
    rw [← List.getD_eq_getElem _ _ hi]

/-- Witness for C9 at the two-machine state for tasks `[3]` (loads `[3, 0]`). -/
theorem C9_statistics_formulas_witness :
    twoMachineState.tasks ≠ [] ∧ (1 : Int) ≤ twoMachineState.num_machines ∧
    twoMachineState.machine_loads.length = twoMachineState.num_machines.toNat ∧
    (∃ stats, calculateStatisticsE twoMachineState = .ok stats ∧
      stats.average_load =
        (twoMachineState.tasks.sum : ℚ) / (twoMachineState.num_machines : ℚ) ∧
      (2 ≤ twoMachineState.num_machines →
        stats.load_variance = specSampleVariance twoMachineState.machine_loads) ∧
      (twoMachineState.num_machines < 2 → stats.load_variance = 0) ∧
      (2 ≤ twoMachineState.num_machines →
        loadStdDev twoMachineState ^ 2 = ((stats.load_variance : ℚ) : ℝ) ∧
        0 ≤ loadStdDev twoMachineState) ∧
      (twoMachineState.num_machines < 2 → loadStdDev twoMachineState = 0) ∧
      stats.utilizations.length = twoMachineState.machine_loads.length ∧
      (∀ i, i < twoMachineState.machine_loads.length → stats.utilizations.getD i 0 =
        (if 0 < twoMachineState.makespan then
          (twoMachineState.machine_loads.getD i 0 : ℚ) / (twoMachineState.makespan : ℚ) * 100
         else 0)) ∧
      stats.efficiency =
        (if 0 < twoMachineState.makespan then
          stats.average_load / (twoMachineState.makespan : ℚ) * 100 else 0) ∧
      (∃ dmax, dmax ∈ twoMachineState.tasks ∧ (∀ d ∈ twoMachineState.tasks, d ≤ dmax) ∧
        stats.lower_bound = max stats.average_load (dmax : ℚ)) ∧
      stats.approximation_ratio =
        (if 0 < stats.lower_bound then
          (twoMachineState.makespan : ℚ) / stats.lower_bound else 1)) :=
  ⟨by decide, by decide, by decide,
    C9_statistics_formulas twoMachineState (by decide) (by decide) (by decide)⟩

end Heronix
